import Mathlib

/-!
# UDP-Statistics: accumulators and packet manager

A shallow embedding of `include/Accumulators.hpp` and `include/PacketManager.hpp`.

Conventions of the embedding.

* `u_int32_t` values are natural numbers; every arithmetic result stored in a
  32-bit unsigned field is reduced `% 4294967296`.
* `int` values are integers. The counter `n_packets` of the entropy
  accumulator and the conversion of the unsigned payload size to `int` are
  reduced to the signed 32-bit range by `wrapInt32`; `offset` is at most 74
  and needs no reduction.
* `time_t` and `suseconds_t` values are integers; the only narrowing of a
  `time_t`, in `get_bitrate`, is modelled.
* `float` values are real numbers. `pkt_entropy` and the running average are
  the source's formulas in exact arithmetic. `pkt_entropy_float` is the same
  loop with every operation rounded as the source's types prescribe
  (`float` is IEEE-754 binary32, `double` binary64, round to nearest even,
  each operation rounded once to its C++ result type, the library `log2`
  correctly rounded; overflow to infinity is not modelled).
* `const unsigned char *packet_data` is a total map from byte offsets to
  bytes; the source never consults the captured length, so neither does the
  model. `sizeof(struct ether_header)` is 14 and `ip_hl` is the low nibble of
  the first byte of the IP header.
* The byte-scanning loop of `EntropyAccumulator::accumulate` is run with fuel:
  `none` means the fuel ran out before the loop condition became false.
* `std::cout` output of `print_data` is the record of the five values printed;
  the two readings of `std::time` in `pkt_handler` are parameters of the call.
-/

/-! ## Data model -/

/-- The `struct timeval` of `<sys/time.h>`: seconds and microseconds. -/
structure timeval where
  tv_sec : Int
  tv_usec : Int
  deriving DecidableEq, Repr

/-- The `struct pcap_pkthdr` of `<pcap.h>`: timestamp, captured length and
wire length (`len`, a `bpf_u_int32`). -/
structure pcap_pkthdr where
  ts : timeval
  caplen : Nat
  len : Nat
  deriving DecidableEq, Repr

/-- The bytes behind `const unsigned char *packet_data`. -/
abbrev PacketData := Nat → Fin 256

/-- One captured frame: the two arguments every `accumulate` receives. -/
structure Frame where
  pkthdr : pcap_pkthdr
  packet_data : PacketData

/-! ## SizeAccumulator -/

/-- The fields of `class SizeAccumulator` (Accumulators.hpp, lines 41-46). -/
structure SizeAccumulator where
  total_size : Nat
  largest : Nat
  smallest : Nat
  n_packets : Nat
  first : timeval
  last : timeval
  deriving DecidableEq, Repr

namespace SizeAccumulator

/-- The constructor `SizeAccumulator()` (lines 49-57). -/
def ctor : SizeAccumulator :=
  { total_size := 0
    n_packets := 0
    largest := 0
    smallest := 65515
    first := ⟨0, 0⟩
    last := ⟨0, 0⟩ }

/-- The method `accumulate` (lines 69-86); `packet_data` is not read. -/
def accumulate (self : SizeAccumulator) (pkthdr : pcap_pkthdr)
    (_packet_data : PacketData) : SizeAccumulator :=
  let first := if self.first.tv_sec = 0 then pkthdr.ts else self.first
  let largest := if pkthdr.len > self.largest then pkthdr.len else self.largest
  let smallest := if pkthdr.len < self.smallest then pkthdr.len else self.smallest
  { total_size := (self.total_size + pkthdr.len) % 4294967296
    n_packets := (self.n_packets + 1) % 4294967296
    largest := largest
    smallest := smallest
    first := first
    last := pkthdr.ts }

/-- The method `get_data` (lines 89-92). -/
def get_data (self : SizeAccumulator) : Nat := self.total_size

/-- The method `get_bitrate` (lines 94-105): the difference of the two
`time_t` seconds is stored in a `u_int32_t`. -/
def get_bitrate (self : SizeAccumulator) : Nat :=
  let window : Nat := ((self.last.tv_sec - self.first.tv_sec) % 4294967296).toNat
  if window = 0 then 0 else (self.total_size / window) / 1000

/-- The method `get_avg_size` (lines 107-117). -/
def get_avg_size (self : SizeAccumulator) : Nat :=
  if self.n_packets = 0 then 0 else self.total_size / self.n_packets

/-- The method `get_largest` (lines 119-122). -/
def get_largest (self : SizeAccumulator) : Nat := self.largest

/-- The method `get_n_packets` (lines 124-127). -/
def get_n_packets (self : SizeAccumulator) : Nat := self.n_packets

/-- The method `get_smallest` (lines 129-132). -/
def get_smallest (self : SizeAccumulator) : Nat := self.smallest

/-- The method `reset` (lines 134-144). -/
def reset (_self : SizeAccumulator) : SizeAccumulator :=
  { total_size := 0
    n_packets := 0
    largest := 0
    smallest := 65515
    first := ⟨0, 0⟩
    last := ⟨0, 0⟩ }

/-- Successive `accumulate` calls, one per frame, in arrival order. -/
def accumulateAll (self : SizeAccumulator) (frames : List Frame) : SizeAccumulator :=
  frames.foldl (fun s f => s.accumulate f.pkthdr f.packet_data) self

end SizeAccumulator

/-! ## EntropyAccumulator -/

/-- An `int` result reduced to the 32-bit two's-complement range. -/
def wrapInt32 (x : Int) : Int := (x + 2147483648) % 4294967296 - 2147483648

/-- The bit-field `ip_hdr->ip_hl` (line 195): the low nibble of the byte at
`sizeof(struct ether_header) = 14`. -/
def ip_hl (packet_data : PacketData) : Nat := (packet_data 14).val % 16

/-- The local `offset` (line 195): `ip_hl * 4 + sizeof(struct ether_header)`. -/
def payloadOffset (packet_data : PacketData) : Int := (ip_hl packet_data : Int) * 4 + 14

/-- The local `udp_payload` (line 197): the unsigned 32-bit difference
`pkthdr->len - (offset + 8)` converted to `int`. -/
def udp_payload (pkthdr : pcap_pkthdr) (packet_data : PacketData) : Int :=
  wrapInt32 (((pkthdr.len : Int) - (payloadOffset packet_data + 8)) % 4294967296)

/-- The initial value of the `u_int16_t` loop index (line 199): `offset + 8`. -/
def scanStart (packet_data : PacketData) : Nat :=
  ((payloadOffset packet_data + 8) % 65536).toNat

/-- The loop of lines 199-202 from index `i` and table `freq`: while
`i < len`, count the byte at `i` and increment the 16-bit index. The counts
of a run that ends are at most 65535, so the `int` counters are not reduced. -/
def scanLoop : Nat → Nat → PacketData → Nat → (Fin 256 → Nat) → Option (Fin 256 → Nat)
  | 0, _, _, _, _ => none
  | fuel + 1, len, packet_data, i, freq =>
    if i < len then
      scanLoop fuel len packet_data ((i + 1) % 65536)
        (Function.update freq (packet_data i) (freq (packet_data i) + 1))
    else some freq

/-- The number of offsets `i` with `lo ≤ i < hi` whose byte is `v`. -/
def byteCount (packet_data : PacketData) (lo hi : Nat) (v : Fin 256) : Nat :=
  ((Finset.Ico lo hi).filter (fun i => packet_data i = v)).card

/-- The table `freq` after lines 193-202. -/
def frequencies (fuel : Nat) (pkthdr : pcap_pkthdr) (packet_data : PacketData) :
    Option (Fin 256 → Nat) :=
  scanLoop fuel pkthdr.len packet_data (scanStart packet_data) (fun _ => 0)

/-- One iteration of the loop of lines 205-212. -/
noncomputable def entropyStep (freq : Fin 256 → Nat) (udp_payload : Int) (log_len : ℝ)
    (pkt_entropy : ℝ) (i : Fin 256) : ℝ :=
  if freq i = 0 then pkt_entropy
  else pkt_entropy
    + ((freq i : ℝ) / (udp_payload : ℝ)) * (log_len - Real.logb 2 (freq i : ℝ))

/-- What iteration `i` of the loop of lines 205-212 adds to `pkt_entropy`. -/
noncomputable def entropyTerm (freq : Fin 256 → Nat) (udp_payload : Int) (i : Fin 256) : ℝ :=
  if freq i = 0 then 0
  else ((freq i : ℝ) / (udp_payload : ℝ))
    * (Real.logb 2 (udp_payload : ℝ) - Real.logb 2 (freq i : ℝ))

/-- The value of `pkt_entropy` after lines 203-212, from the table `freq` and
`udp_payload`. -/
noncomputable def pkt_entropy (freq : Fin 256 → Nat) (udp_payload : Int) : ℝ :=
  (List.finRange 256).foldl
    (entropyStep freq udp_payload (Real.logb 2 (udp_payload : ℝ))) 0

/-- The value of `pkt_entropy` that `accumulate` reaches line 213 with. -/
noncomputable def frameEntropy (fuel : Nat) (pkthdr : pcap_pkthdr)
    (packet_data : PacketData) : Option ℝ :=
  (frequencies fuel pkthdr packet_data).map
    (fun freq => pkt_entropy freq (udp_payload pkthdr packet_data))

/-- The fields of `class EntropyAccumulator` (lines 169-170). -/
structure EntropyAccumulator where
  n_packets : Int
  avg_entropy : ℝ

namespace EntropyAccumulator

/-- The constructor `EntropyAccumulator()` (lines 172-176). -/
noncomputable def ctor : EntropyAccumulator :=
  { avg_entropy := 0
    n_packets := 0 }

/-- Lines 190 and 213: count the packet and fold its entropy into the average. -/
noncomputable def update (self : EntropyAccumulator) (pkt_entropy : ℝ) :
    EntropyAccumulator :=
  let n_packets := wrapInt32 (self.n_packets + 1)
  { n_packets := n_packets
    avg_entropy :=
      (self.avg_entropy * ((wrapInt32 (n_packets - 1) : Int) : ℝ) + pkt_entropy)
        / (n_packets : ℝ) }

/-- The method `accumulate` (lines 187-214). -/
noncomputable def accumulate (fuel : Nat) (self : EntropyAccumulator) (pkthdr : pcap_pkthdr)
    (packet_data : PacketData) : Option EntropyAccumulator :=
  match frameEntropy fuel pkthdr packet_data with
  | none => none
  | some pkt_entropy => some (self.update pkt_entropy)

/-- The method `get_data` (lines 216-219). -/
def get_data (self : EntropyAccumulator) : ℝ := self.avg_entropy

/-- The method `reset` (lines 221-225). -/
noncomputable def reset (_self : EntropyAccumulator) : EntropyAccumulator :=
  { avg_entropy := 0
    n_packets := 0 }

/-- Successive `accumulate` calls, one per frame, in arrival order. -/
noncomputable def accumulateAll (fuel : Nat) :
    EntropyAccumulator → List Frame → Option EntropyAccumulator
  | self, [] => some self
  | self, f :: fs =>
    match self.accumulate fuel f.pkthdr f.packet_data with
    | none => none
    | some s => accumulateAll fuel s fs

end EntropyAccumulator

/-! ## PacketManager -/

/-- The five values `print_data` writes (PacketManager.hpp, lines 58-66). -/
structure Statistics where
  size : Nat
  n_packets : Nat
  avg_size : Nat
  bitrate : Nat
  entropy : ℝ

/-- The fields of `class PacketManager` (lines 25-27). -/
structure PacketManager where
  size_acc : SizeAccumulator
  entropy_acc : EntropyAccumulator
  stamp : Int

namespace PacketManager

/-- The constructor `PacketManager()` (lines 30-35); `now` is the reading of
`std::time(nullptr)`. -/
noncomputable def ctor (now : Int) : PacketManager :=
  { size_acc := SizeAccumulator.ctor
    entropy_acc := EntropyAccumulator.ctor
    stamp := now }

/-- The method `print_data` (lines 58-66): what it reads from the accumulators. -/
def print_data (self : PacketManager) : Statistics :=
  { size := self.size_acc.get_data
    n_packets := self.size_acc.get_n_packets
    avg_size := self.size_acc.get_avg_size
    bitrate := self.size_acc.get_bitrate
    entropy := self.entropy_acc.get_data }

/-- The method `pkt_handler` (lines 45-57). `clock` is the reading of
`std::time(nullptr)` in the condition, `clock2` the reading `std::time(&stamp)`
stores. The result is the new state and what was printed during the call. -/
noncomputable def pkt_handler (fuel : Nat) (self : PacketManager) (pkthdr : pcap_pkthdr)
    (packet_data : PacketData) (clock clock2 : Int) :
    Option (PacketManager × List Statistics) :=
  let size_acc := self.size_acc.accumulate pkthdr packet_data
  match self.entropy_acc.accumulate fuel pkthdr packet_data with
  | none => none
  | some entropy_acc =>
    if clock - self.stamp > 1 then
      let printed : PacketManager :=
        { size_acc := size_acc, entropy_acc := entropy_acc, stamp := clock2 }
      some ({ size_acc := size_acc.reset
              entropy_acc := entropy_acc.reset
              stamp := clock2 }, [printed.print_data])
    else
      some ({ size_acc := size_acc, entropy_acc := entropy_acc, stamp := self.stamp }, [])

end PacketManager

/-- One callback invocation: the frame and the two clock readings of the call. -/
structure Delivery where
  frame : Frame
  clock : Int
  clock2 : Int

/-- The frames of a sequence of deliveries. -/
def deliveredFrames (ds : List Delivery) : List Frame := ds.map (fun d => d.frame)

/-- Successive `pkt_handler` calls, collecting what they print, in order. -/
noncomputable def PacketManager.run (fuel : Nat) :
    PacketManager → List Delivery → Option (PacketManager × List Statistics)
  | self, [] => some (self, [])
  | self, d :: ds =>
    match self.pkt_handler fuel d.frame.pkthdr d.frame.packet_data d.clock d.clock2 with
    | none => none
    | some (pm, out) =>
      match PacketManager.run fuel pm ds with
      | none => none
      | some (pm2, out2) => some (pm2, out ++ out2)

/-- The wire lengths of a sequence of frames. -/
def wireLengths (frames : List Frame) : List Nat :=
  frames.map (fun f => f.pkthdr.len)

/-- A frame with the given timestamp seconds and wire length, all bytes zero. -/
def plainFrame (sec : Int) (len : Nat) : Frame :=
  { pkthdr := { ts := ⟨sec, 0⟩, caplen := len, len := len }
    packet_data := fun _ => 0 }

/-- A frame with the given timestamp and wire length, all bytes zero. -/
def timedFrame (sec usec : Int) (len : Nat) : Frame :=
  { pkthdr := { ts := ⟨sec, usec⟩, caplen := len, len := len }
    packet_data := fun _ => 0 }

/-- A frame with IPv4 header-length nibble 5 (byte 14 is `0x45`), so that the
payload starts at offset 42, and every other byte equal to `b`. -/
def udpFrame (sec : Int) (len : Nat) (b : Fin 256) : Frame :=
  { pkthdr := { ts := ⟨sec, 0⟩, caplen := len, len := len }
    packet_data := fun i => if i = 14 then 69 else b }

/-- A delivery of `udpFrame` with both clock readings equal to `clock`. -/
def udpDelivery (clock : Int) (len : Nat) (b : Fin 256) : Delivery :=
  { frame := udpFrame clock len b, clock := clock, clock2 := clock }

/-- The Shannon entropy of a frequency table as the specification words it:
`H = -Σ p_i * log2(p_i)` over the byte values `i` with non-zero frequency,
where `p_i = freq[i] / payload_size`. -/
noncomputable def shannonEntropy (freq : Fin 256 → Nat) (payload_size : Int) : ℝ :=
  -(∑ i : Fin 256,
      if freq i = 0 then 0
      else ((freq i : ℝ) / (payload_size : ℝ))
        * Real.logb 2 ((freq i : ℝ) / (payload_size : ℝ)))

/-- The clock readings (first reading of the call) of the `pkt_handler` calls
of a run that printed a summary, in order. -/
noncomputable def PacketManager.emissionClocks (fuel : Nat) :
    PacketManager → List Delivery → Option (List Int)
  | _, [] => some []
  | self, d :: ds =>
    match self.pkt_handler fuel d.frame.pkthdr d.frame.packet_data d.clock d.clock2 with
    | none => none
    | some (pm, out) =>
      match PacketManager.emissionClocks fuel pm ds with
      | none => none
      | some cs => some (if out.isEmpty then cs else d.clock :: cs)

/-- A frame of wire length 298 with header-length nibble 5 whose 256 payload
bytes, at offsets 42 to 297, are the byte values 0 to 255 in order. -/
def distinctFrame : Frame :=
  { pkthdr := { ts := ⟨5, 0⟩, caplen := 298, len := 298 }
    packet_data := fun i =>
      if i = 14 then 69 else ⟨(i - 42) % 256, Nat.mod_lt _ (by decide)⟩ }

/-- A frame of wire length 44 with header-length nibble 5 whose two payload
bytes, at offsets 42 and 43, are 1 and 0. -/
def mixedFrame : Frame :=
  { pkthdr := { ts := ⟨5, 0⟩, caplen := 44, len := 44 }
    packet_data := fun i => if i = 14 then 69 else if i = 42 then 1 else 0 }

/-- A run of `2^32 + 1` frames: wire lengths 10 and 20, then `2^32 - 1` frames
of wire length 0. -/
def wrappingRun : List Frame :=
  plainFrame 5 10 :: plainFrame 5 20 :: List.replicate 4294967295 (plainFrame 5 0)

/-- Two deliveries of header-only frames, at clock readings 12 and 14. -/
def closingRun : List Delivery := [udpDelivery 12 42 65, udpDelivery 14 42 65]

/-- The summary printed for a window that holds the single header-only frame
delivered at `clock`. -/
noncomputable def closingSummary (clock : Int) : Statistics :=
  PacketManager.print_data
    ⟨SizeAccumulator.ctor.accumulate (udpFrame clock 42 65).pkthdr
        (udpFrame clock 42 65).packet_data,
      EntropyAccumulator.ctor.update 0, clock⟩

/-! ## Size statistics: counters -/

theorem size_accumulateAll_nil (s : SizeAccumulator) :
    s.accumulateAll [] = s := rfl

theorem size_accumulateAll_cons (s : SizeAccumulator) (f : Frame)
    (fs : List Frame) :
    s.accumulateAll (f :: fs) = (s.accumulate f.pkthdr f.packet_data).accumulateAll fs := rfl

theorem size_accumulateAll_append (s : SizeAccumulator) (fs gs : List Frame) :
    s.accumulateAll (fs ++ gs) = (s.accumulateAll fs).accumulateAll gs := by
  simp [SizeAccumulator.accumulateAll, List.foldl_append]

/-- Both counters after any run, as residues modulo `2^32`. -/
theorem size_counters_accumulateAll (frames : List Frame) (s : SizeAccumulator) :
    (s.accumulateAll frames).n_packets % 4294967296
        = (s.n_packets + frames.length) % 4294967296 ∧
      (s.accumulateAll frames).total_size % 4294967296
        = (s.total_size + (wireLengths frames).sum) % 4294967296 := by
  induction frames generalizing s with
  | nil => simp [SizeAccumulator.accumulateAll, wireLengths]
  | cons f fs ih =>
    rw [size_accumulateAll_cons]
    obtain ⟨h1, h2⟩ := ih (s.accumulate f.pkthdr f.packet_data)
    refine ⟨?_, ?_⟩
    · rw [h1]
      simp only [SizeAccumulator.accumulate, List.length_cons]
      omega
    · rw [h2]
      simp only [SizeAccumulator.accumulate, wireLengths, List.map_cons, List.sum_cons]
      omega

/-- After at least one `accumulate` the counters are reduced residues. -/
theorem size_counters_lt (frames : List Frame) (s : SizeAccumulator)
    (hn : s.n_packets < 4294967296) (ht : s.total_size < 4294967296) :
    (s.accumulateAll frames).n_packets < 4294967296 ∧
      (s.accumulateAll frames).total_size < 4294967296 := by
  induction frames generalizing s with
  | nil => exact ⟨hn, ht⟩
  | cons f fs ih =>
    rw [size_accumulateAll_cons]
    apply ih
    · simp only [SizeAccumulator.accumulate]; omega
    · simp only [SizeAccumulator.accumulate]; omega

/-- C1 (as amended): from the constructed state, as long as the number of
frames and the sum of their wire lengths both stay below `2^32`, `n_packets`
is the number of frames and `get_data` is the exact sum of the wire lengths. -/
theorem C1_exact_counters (frames : List Frame)
    (hlen : frames.length < 4294967296)
    (hsum : (wireLengths frames).sum < 4294967296) :
    (SizeAccumulator.ctor.accumulateAll frames).n_packets = frames.length ∧
      (SizeAccumulator.ctor.accumulateAll frames).get_data = (wireLengths frames).sum := by
  obtain ⟨h1, h2⟩ := size_counters_accumulateAll frames SizeAccumulator.ctor
  obtain ⟨b1, b2⟩ := size_counters_lt frames SizeAccumulator.ctor
    (by decide) (by decide)
  have e1 : SizeAccumulator.ctor.n_packets = 0 := rfl
  have e2 : SizeAccumulator.ctor.total_size = 0 := rfl
  rw [e1, Nat.zero_add, Nat.mod_eq_of_lt b1, Nat.mod_eq_of_lt hlen] at h1
  rw [e2, Nat.zero_add, Nat.mod_eq_of_lt b2, Nat.mod_eq_of_lt hsum] at h2
  exact ⟨h1, h2⟩

/-- C1 witness: the frames of wire length 100, 200 and 300. -/
theorem C1_exact_counters_witness :
    (SizeAccumulator.ctor.accumulateAll
        [plainFrame 5 100, plainFrame 5 200, plainFrame 5 300]).n_packets = 3 ∧
      (SizeAccumulator.ctor.accumulateAll
        [plainFrame 5 100, plainFrame 5 200, plainFrame 5 300]).get_data = 600 :=
  C1_exact_counters
    [plainFrame 5 100, plainFrame 5 200, plainFrame 5 300] (by decide) (by decide)

/-- C1 counterexample: two frames of wire length `4294967295` and `1` leave
`get_data` at `0`, not at their sum `4294967296`; and `2^32` frames of wire
length `0` leave `n_packets` at `0`, not at `2^32`. -/
theorem C1_counterexample :
    ((SizeAccumulator.ctor.accumulateAll
        [plainFrame 5 4294967295, plainFrame 5 1]).get_data = 0 ∧
      (wireLengths [plainFrame 5 4294967295, plainFrame 5 1]).sum = 4294967296 ∧
      (SizeAccumulator.ctor.accumulateAll
        [plainFrame 5 4294967295, plainFrame 5 1]).get_data
        ≠ (wireLengths [plainFrame 5 4294967295, plainFrame 5 1]).sum) ∧
    ((SizeAccumulator.ctor.accumulateAll
        (List.replicate 4294967296 (plainFrame 5 0))).n_packets = 0 ∧
      (SizeAccumulator.ctor.accumulateAll
        (List.replicate 4294967296 (plainFrame 5 0))).n_packets
        ≠ (List.replicate 4294967296 (plainFrame 5 0)).length) := by
  have hn := (size_counters_accumulateAll (List.replicate 4294967296 (plainFrame 5 0))
    SizeAccumulator.ctor).1
  have hb := (size_counters_lt (List.replicate 4294967296 (plainFrame 5 0))
    SizeAccumulator.ctor (by decide) (by decide)).1
  have e1 : SizeAccumulator.ctor.n_packets = 0 := rfl
  rw [List.length_replicate, e1, Nat.mod_eq_of_lt hb] at hn
  have hz : (0 + 4294967296) % 4294967296 = 0 := by decide
  rw [hz] at hn
  refine ⟨⟨by decide, by decide, by decide⟩, hn, ?_⟩
  rw [hn, List.length_replicate]
  decide

/-! ## Size statistics: extremes -/

/-- The field `largest` after a run is the running maximum of the wire lengths. -/
theorem size_largest_accumulateAll (frames : List Frame) (s : SizeAccumulator) :
    (s.accumulateAll frames).largest = (wireLengths frames).foldl max s.largest := by
  induction frames generalizing s with
  | nil => rfl
  | cons f fs ih =>
    rw [size_accumulateAll_cons, ih]
    simp only [wireLengths, List.map_cons, List.foldl_cons, SizeAccumulator.accumulate]
    congr 1
    split <;> omega

/-- The field `smallest` after a run is the running minimum of the wire
lengths and the value it started from. -/
theorem size_smallest_accumulateAll (frames : List Frame) (s : SizeAccumulator) :
    (s.accumulateAll frames).smallest = (wireLengths frames).foldl min s.smallest := by
  induction frames generalizing s with
  | nil => rfl
  | cons f fs ih =>
    rw [size_accumulateAll_cons, ih]
    simp only [wireLengths, List.map_cons, List.foldl_cons, SizeAccumulator.accumulate]
    congr 1
    split <;> omega

/-- A running maximum bounds its start value and every element. -/
theorem foldl_max_ge (l : List Nat) (a : Nat) :
    a ≤ l.foldl max a ∧ ∀ x ∈ l, x ≤ l.foldl max a := by
  induction l generalizing a with
  | nil => simp
  | cons y ys ih =>
    obtain ⟨h1, h2⟩ := ih (max a y)
    refine ⟨le_trans (le_max_left a y) h1, ?_⟩
    intro x hx
    rcases List.mem_cons.mp hx with rfl | hx
    · exact le_trans (le_max_right a x) h1
    · exact h2 x hx

/-- A running maximum is its start value or an element. -/
theorem foldl_max_mem (l : List Nat) (a : Nat) :
    l.foldl max a = a ∨ l.foldl max a ∈ l := by
  induction l generalizing a with
  | nil => simp
  | cons y ys ih =>
    rw [List.foldl_cons]
    rcases ih (max a y) with h | h
    · rcases le_total a y with hay | hay
      · right; rw [h, max_eq_right hay]; exact List.mem_cons_self _ _
      · left; rw [h, max_eq_left hay]
    · right; exact List.mem_cons_of_mem _ h

/-- A running minimum is below its start value and every element. -/
theorem foldl_min_le (l : List Nat) (a : Nat) :
    l.foldl min a ≤ a ∧ ∀ x ∈ l, l.foldl min a ≤ x := by
  induction l generalizing a with
  | nil => simp
  | cons y ys ih =>
    obtain ⟨h1, h2⟩ := ih (min a y)
    refine ⟨le_trans h1 (min_le_left a y), ?_⟩
    intro x hx
    rcases List.mem_cons.mp hx with rfl | hx
    · exact le_trans h1 (min_le_right a x)
    · exact h2 x hx

/-- A running minimum is its start value or an element. -/
theorem foldl_min_mem (l : List Nat) (a : Nat) :
    l.foldl min a = a ∨ l.foldl min a ∈ l := by
  induction l generalizing a with
  | nil => simp
  | cons y ys ih =>
    rw [List.foldl_cons]
    rcases ih (min a y) with h | h
    · rcases le_total a y with hay | hay
      · left; rw [h, min_eq_left hay]
      · right; rw [h, min_eq_right hay]; exact List.mem_cons_self _ _
    · right; exact List.mem_cons_of_mem _ h

/-- From the constructed state and a non-empty run, `get_largest` is the true
maximum of the wire lengths: one of them, and at least each of them. -/
theorem size_largest_is_max (frames : List Frame) (hne : frames ≠ []) :
    (SizeAccumulator.ctor.accumulateAll frames).get_largest ∈ wireLengths frames ∧
      ∀ L ∈ wireLengths frames,
        L ≤ (SizeAccumulator.ctor.accumulateAll frames).get_largest := by
  have hl : (SizeAccumulator.ctor.accumulateAll frames).get_largest
      = (wireLengths frames).foldl max 0 :=
    size_largest_accumulateAll frames SizeAccumulator.ctor
  rw [hl]
  obtain ⟨-, hge⟩ := foldl_max_ge (wireLengths frames) 0
  refine ⟨?_, hge⟩
  rcases foldl_max_mem (wireLengths frames) 0 with h | h
  · obtain ⟨f, fs, rfl⟩ := List.exists_cons_of_ne_nil hne
    have h0 : f.pkthdr.len ≤ 0 := by
      have := hge f.pkthdr.len (by simp [wireLengths])
      omega
    have h00 : f.pkthdr.len = 0 := Nat.le_zero.mp h0
    rw [h]
    simp [wireLengths, h00]
  · exact h

/-- From the constructed state, when some frame of the run is no longer than
the initial value `65515` of `smallest`, `get_smallest` is the true minimum of
the wire lengths: one of them, and at most each of them. -/
theorem size_smallest_is_min (frames : List Frame)
    (hsome : ∃ L ∈ wireLengths frames, L ≤ 65515) :
    (SizeAccumulator.ctor.accumulateAll frames).get_smallest ∈ wireLengths frames ∧
      ∀ L ∈ wireLengths frames,
        (SizeAccumulator.ctor.accumulateAll frames).get_smallest ≤ L := by
  have hl : (SizeAccumulator.ctor.accumulateAll frames).get_smallest
      = (wireLengths frames).foldl min 65515 :=
    size_smallest_accumulateAll frames SizeAccumulator.ctor
  rw [hl]
  obtain ⟨-, hle⟩ := foldl_min_le (wireLengths frames) 65515
  refine ⟨?_, hle⟩
  rcases foldl_min_mem (wireLengths frames) 65515 with h | h
  · obtain ⟨L, hL, hL2⟩ := hsome
    have h1 := hle L hL
    rw [h] at h1
    have : L = 65515 := le_antisymm hL2 h1
    rw [h, ← this]
    exact hL
  · exact h

/-- From the constructed state, when every frame of the run is longer than
`65515`, `get_smallest` stays at `65515`, below every wire length. -/
theorem size_smallest_stuck (frames : List Frame)
    (hall : ∀ L ∈ wireLengths frames, 65515 < L) :
    (SizeAccumulator.ctor.accumulateAll frames).get_smallest = 65515 := by
  have hl : (SizeAccumulator.ctor.accumulateAll frames).get_smallest
      = (wireLengths frames).foldl min 65515 :=
    size_smallest_accumulateAll frames SizeAccumulator.ctor
  rw [hl]
  rcases foldl_min_mem (wireLengths frames) 65515 with h | h
  · exact h
  · have h1 := hall _ h
    have h2 := (foldl_min_le (wireLengths frames) 65515).1
    omega

/-- C2 (failing input): one frame of wire length 65549, the longest Ethernet
frame that carries an IPv4 datagram. `get_largest` is 65549, the true maximum,
but `get_smallest` is 65515, which is not the length of any frame of the run
and not the true minimum 65549. -/
theorem C2_smallest_not_minimum :
    (SizeAccumulator.ctor.accumulateAll [plainFrame 5 65549]).get_largest = 65549 ∧
      (SizeAccumulator.ctor.accumulateAll [plainFrame 5 65549]).get_smallest = 65515 ∧
      wireLengths [plainFrame 5 65549] = [65549] ∧
      (SizeAccumulator.ctor.accumulateAll [plainFrame 5 65549]).get_smallest
        ∉ wireLengths [plainFrame 5 65549] := by
  refine ⟨?_, ?_, ?_, ?_⟩ <;> decide

/-! ## The byte-scanning loop -/

/-- When the loop condition is false at entry the table is returned as it is. -/
theorem scanLoop_of_not_lt (fuel len i : Nat) (data : PacketData) (freq : Fin 256 → Nat)
    (h : ¬ i < len) : scanLoop (fuel + 1) len data i freq = some freq := by
  simp [scanLoop, h]

/-- For a wire length of at most 65535 the loop ends as soon as the fuel
exceeds the number of bytes left. -/
theorem scanLoop_isSome (fuel len : Nat) (data : PacketData) (hlen : len ≤ 65535) :
    ∀ (i : Nat) (freq : Fin 256 → Nat), len - i < fuel →
      ∃ freq2, scanLoop fuel len data i freq = some freq2 := by
  induction fuel with
  | zero => intro i freq h; omega
  | succ n ih =>
    intro i freq h
    by_cases hi : i < len
    · have hmod : (i + 1) % 65536 = i + 1 := Nat.mod_eq_of_lt (by omega)
      obtain ⟨f2, hf2⟩ := ih (i + 1)
        (Function.update freq (data i) (freq (data i) + 1)) (by omega)
      exact ⟨f2, by simp [scanLoop, hi, hmod, hf2]⟩
    · exact ⟨freq, scanLoop_of_not_lt n len i data freq hi⟩

/-- For a wire length of 65536 or more the 16-bit index stays below the
length: no amount of fuel ends the loop. -/
theorem scanLoop_diverges (len : Nat) (data : PacketData) (hlen : 65536 ≤ len) :
    ∀ (fuel i : Nat) (freq : Fin 256 → Nat), i < 65536 →
      scanLoop fuel len data i freq = none := by
  intro fuel
  induction fuel with
  | zero => intro i freq _; rfl
  | succ n ih =>
    intro i freq hi
    have hlt : i < len := by omega
    simp only [scanLoop, hlt, if_true]
    exact ih _ _ (Nat.mod_lt _ (by decide))

/-- The initial loop index is `offset + 8`, at most 82. -/
theorem scanStart_eq (data : PacketData) :
    (scanStart data : Int) = payloadOffset data + 8 ∧ scanStart data ≤ 82 := by
  unfold scanStart payloadOffset ip_hl
  have h : (data 14).val % 16 < 16 := Nat.mod_lt _ (by decide)
  constructor <;> omega

/-- For a wire length of at most 65535, `udp_payload` is the plain difference
`len - (offset + 8)`. -/
theorem udp_payload_eq (hdr : pcap_pkthdr) (data : PacketData) (hlen : hdr.len ≤ 65535) :
    udp_payload hdr data = (hdr.len : Int) - (payloadOffset data + 8) := by
  have h := scanStart_eq data
  unfold udp_payload wrapInt32
  omega

/-- The table is produced for every frame of wire length at most 65535. -/
theorem frequencies_isSome (fuel : Nat) (hdr : pcap_pkthdr) (data : PacketData)
    (hlen : hdr.len ≤ 65535) (hfuel : hdr.len < fuel) :
    ∃ freq, frequencies fuel hdr data = some freq :=
  scanLoop_isSome fuel hdr.len data hlen _ _ (by omega)

/-- The per-frame entropy is produced for every frame of wire length at most
65535. -/
theorem frameEntropy_isSome (fuel : Nat) (hdr : pcap_pkthdr) (data : PacketData)
    (hlen : hdr.len ≤ 65535) (hfuel : hdr.len < fuel) :
    ∃ H, frameEntropy fuel hdr data = some H := by
  obtain ⟨freq, hf⟩ := frequencies_isSome fuel hdr data hlen hfuel
  exact ⟨pkt_entropy freq (udp_payload hdr data), by simp [frameEntropy, hf]⟩

/-- No table, entropy or new accumulator state is ever produced for a frame of
wire length 65536 or more. -/
theorem accumulate_diverges (fuel : Nat) (s : EntropyAccumulator) (hdr : pcap_pkthdr)
    (data : PacketData) (hlen : 65536 ≤ hdr.len) :
    frameEntropy fuel hdr data = none ∧ s.accumulate fuel hdr data = none := by
  have h : frequencies fuel hdr data = none :=
    scanLoop_diverges hdr.len data hlen fuel _ _ (by have := scanStart_eq data; omega)
  have h2 : frameEntropy fuel hdr data = none := by simp [frameEntropy, h]
  exact ⟨h2, by simp [EntropyAccumulator.accumulate, h2]⟩

/-! ## The entropy sum -/

theorem entropy_foldl (freq : Fin 256 → Nat) (n : Int) (l : List (Fin 256)) (acc : ℝ) :
    l.foldl (entropyStep freq n (Real.logb 2 (n : ℝ))) acc
      = acc + (l.map (entropyTerm freq n)).sum := by
  induction l generalizing acc with
  | nil => simp
  | cons x xs ih =>
    rw [List.foldl_cons, ih, List.map_cons, List.sum_cons]
    unfold entropyStep entropyTerm
    split <;> ring

/-- The loop of lines 205-212 computes the sum of its 256 terms. -/
theorem pkt_entropy_eq_sum (freq : Fin 256 → Nat) (n : Int) :
    pkt_entropy freq n = ∑ i : Fin 256, entropyTerm freq n i := by
  unfold pkt_entropy
  rw [entropy_foldl, zero_add, Fin.sum_univ_def]

/-- An all-zero table gives entropy `0`, whatever `udp_payload` is: the
logarithm of `udp_payload` is never used. -/
theorem pkt_entropy_zero_table (n : Int) : pkt_entropy (fun _ => 0) n = 0 := by
  rw [pkt_entropy_eq_sum]
  apply Finset.sum_eq_zero
  intro i _
  simp [entropyTerm]

/-! ## The running average -/

theorem wrapInt32_of_range (x : Int) (h1 : -2147483648 ≤ x) (h2 : x < 2147483648) :
    wrapInt32 x = x := by
  unfold wrapInt32; omega

/-- Lines 190 and 213 on a counter that does not overflow: the counter goes up
by one and the average becomes `(avg * n + H) / (n + 1)`. -/
theorem entropy_update_eq (s : EntropyAccumulator) (H : ℝ)
    (h0 : 0 ≤ s.n_packets) (h1 : s.n_packets < 2147483647) :
    (s.update H).n_packets = s.n_packets + 1 ∧
      (s.update H).avg_entropy
        = (s.avg_entropy * (s.n_packets : ℝ) + H) / ((s.n_packets : ℝ) + 1) := by
  have e1 : wrapInt32 (s.n_packets + 1) = s.n_packets + 1 :=
    wrapInt32_of_range _ (by omega) (by omega)
  have e2 : wrapInt32 (s.n_packets + 1 - 1) = s.n_packets :=
    by rw [wrapInt32_of_range _ (by omega) (by omega)]; omega
  refine ⟨?_, ?_⟩
  · simp only [EntropyAccumulator.update, e1]
  · simp only [EntropyAccumulator.update, e1, e2]
    push_cast
    rfl

/-- A frame of wire length at most 65535 is always accumulated: the new state
is `update` at the per-frame entropy. -/
theorem entropy_accumulate_isSome (fuel : Nat) (s : EntropyAccumulator) (hdr : pcap_pkthdr)
    (data : PacketData) (hlen : hdr.len ≤ 65535) (hfuel : hdr.len < fuel) :
    ∃ H, frameEntropy fuel hdr data = some H ∧
      s.accumulate fuel hdr data = some (s.update H) := by
  obtain ⟨H, hH⟩ := frameEntropy_isSome fuel hdr data hlen hfuel
  exact ⟨H, hH, by simp [EntropyAccumulator.accumulate, hH]⟩

/-- A run over frames of wire length at most 65535 whose counter does not
overflow: every frame has a per-frame entropy, the counter goes up by the
number of frames and `avg * n` goes up by the sum of the entropies. -/
theorem entropy_accumulateAll_sum (fuel : Nat) (hfuel : 65536 ≤ fuel) (frames : List Frame) :
    ∀ s : EntropyAccumulator, 0 ≤ s.n_packets →
      s.n_packets + frames.length < 2147483648 →
      (∀ f ∈ frames, f.pkthdr.len ≤ 65535) →
      ∃ (Hs : List ℝ) (s2 : EntropyAccumulator),
        List.Forall₂ (fun f H => frameEntropy fuel f.pkthdr f.packet_data = some H) frames Hs ∧
        EntropyAccumulator.accumulateAll fuel s frames = some s2 ∧
        s2.n_packets = s.n_packets + frames.length ∧
        s2.avg_entropy * (s2.n_packets : ℝ)
          = s.avg_entropy * (s.n_packets : ℝ) + Hs.sum := by
  induction frames with
  | nil =>
    intro s _ _ _
    exact ⟨[], s, List.Forall₂.nil, rfl, by simp, by simp⟩
  | cons f fs ih =>
    intro s h0 hk hlen
    have hk2 : s.n_packets + (fs.length + 1 : Nat) < 2147483648 := by
      simpa using hk
    have hf : f.pkthdr.len ≤ 65535 := hlen f (List.mem_cons_self _ _)
    obtain ⟨H, hH, hacc⟩ :=
      entropy_accumulate_isSome fuel s f.pkthdr f.packet_data hf (by omega)
    obtain ⟨hn, havg⟩ := entropy_update_eq s H h0 (by omega)
    obtain ⟨Hs, s2, hall, hrun, hn2, havg2⟩ := ih (s.update H) (by omega) (by omega)
      (fun g hg => hlen g (List.mem_cons_of_mem _ hg))
    refine ⟨H :: Hs, s2, List.Forall₂.cons hH hall, ?_, ?_, ?_⟩
    · simp [EntropyAccumulator.accumulateAll, hacc, hrun]
    · rw [hn2, hn, List.length_cons]; push_cast; omega
    · rw [havg2, havg, hn, List.sum_cons]
      have hpos : (0 : ℝ) < (s.n_packets : ℝ) + 1 := by
        have : (0 : ℝ) ≤ (s.n_packets : ℝ) := by exact_mod_cast h0
        linarith
      push_cast
      field_simp
      ring

/-- The counter of a state that `update` produced is a 32-bit signed value. -/
theorem entropy_update_range (s : EntropyAccumulator) (H : ℝ) :
    wrapInt32 (s.update H).n_packets = (s.update H).n_packets := by
  simp only [EntropyAccumulator.update]
  unfold wrapInt32
  omega

/-- The counter after any run over frames of wire length at most 65535: the
number of frames added in 32-bit signed arithmetic. -/
theorem entropy_accumulateAll_count (fuel : Nat) (hfuel : 65536 ≤ fuel) (frames : List Frame) :
    ∀ s : EntropyAccumulator, wrapInt32 s.n_packets = s.n_packets →
      (∀ f ∈ frames, f.pkthdr.len ≤ 65535) →
      ∃ s2 : EntropyAccumulator,
        EntropyAccumulator.accumulateAll fuel s frames = some s2 ∧
        s2.n_packets = wrapInt32 (s.n_packets + frames.length) := by
  induction frames with
  | nil => intro s hs _; exact ⟨s, rfl, by simpa using hs.symm⟩
  | cons f fs ih =>
    intro s _ hlen
    have hf : f.pkthdr.len ≤ 65535 := hlen f (List.mem_cons_self _ _)
    obtain ⟨H, -, hacc⟩ :=
      entropy_accumulate_isSome fuel s f.pkthdr f.packet_data hf (by omega)
    obtain ⟨s2, hrun, hn2⟩ := ih (s.update H) (entropy_update_range s H)
      (fun g hg => hlen g (List.mem_cons_of_mem _ hg))
    refine ⟨s2, by simp [EntropyAccumulator.accumulateAll, hacc, hrun], ?_⟩
    rw [hn2]
    simp only [EntropyAccumulator.update, List.length_cons]
    unfold wrapInt32
    push_cast
    omega

/-- C3 (as amended): from the constructed state, for every `1 ≤ k < 2^31` and
every sequence of `k` frames of positive payload size and wire length at most
65535, every frame has a per-frame entropy `H_i`, the run ends, `n_packets`
is `k` and `get_data` is `(H_1 + ... + H_k) / k` in exact arithmetic. -/
theorem C3_running_average (fuel : Nat) (frames : List Frame) (hfuel : 65536 ≤ fuel)
    (hne : frames ≠ []) (hk : frames.length < 2147483648)
    (hlen : ∀ f ∈ frames, f.pkthdr.len ≤ 65535)
    (_hpos : ∀ f ∈ frames, 0 < udp_payload f.pkthdr f.packet_data) :
    ∃ (Hs : List ℝ) (s : EntropyAccumulator),
      List.Forall₂ (fun f H => frameEntropy fuel f.pkthdr f.packet_data = some H) frames Hs ∧
      EntropyAccumulator.accumulateAll fuel EntropyAccumulator.ctor frames = some s ∧
      s.n_packets = (frames.length : Int) ∧
      s.get_data = Hs.sum / (frames.length : ℝ) := by
  have h0 : EntropyAccumulator.ctor.n_packets = 0 := rfl
  obtain ⟨Hs, s, hall, hrun, hn, havg⟩ :=
    entropy_accumulateAll_sum fuel hfuel frames EntropyAccumulator.ctor
      (by rw [h0]) (by rw [h0]; omega) hlen
  rw [h0] at hn havg
  have hn2 : s.n_packets = (frames.length : Int) := by omega
  refine ⟨Hs, s, hall, hrun, hn2, ?_⟩
  have hpos : (0 : ℝ) < (frames.length : ℝ) := by
    have : 0 < frames.length := List.length_pos.mpr hne
    exact_mod_cast this
  rw [hn2] at havg
  simp only [Int.cast_natCast, Int.cast_zero, mul_zero, zero_add] at havg
  unfold EntropyAccumulator.get_data
  rw [eq_div_iff (ne_of_gt hpos)]
  exact havg

/-- C3 witness: two frames with ten payload bytes each. -/
theorem C3_running_average_witness :
    ∃ (Hs : List ℝ) (s : EntropyAccumulator),
      List.Forall₂ (fun f H => frameEntropy 65536 f.pkthdr f.packet_data = some H)
        [udpFrame 5 52 65, udpFrame 6 52 66] Hs ∧
      EntropyAccumulator.accumulateAll 65536 EntropyAccumulator.ctor
        [udpFrame 5 52 65, udpFrame 6 52 66] = some s ∧
      s.n_packets = (([udpFrame 5 52 65, udpFrame 6 52 66] : List Frame).length : Int) ∧
      s.get_data
        = Hs.sum / (([udpFrame 5 52 65, udpFrame 6 52 66] : List Frame).length : ℝ) :=
  C3_running_average 65536 [udpFrame 5 52 65, udpFrame 6 52 66] (by decide)
    (List.cons_ne_nil _ _) (by decide) (by decide) (by decide)

/-- C3 counterexample. First, a single frame of wire length 65536 has a
positive payload size, yet `accumulate` never returns on it, whatever the
fuel. Second, after `2^31` frames with one payload byte each the `int` counter
`n_packets` is `-2^31`, not the number of frames. -/
theorem C3_counterexample :
    (0 < udp_payload (udpFrame 5 65536 65).pkthdr (udpFrame 5 65536 65).packet_data ∧
      ∀ fuel : Nat,
        EntropyAccumulator.accumulateAll fuel EntropyAccumulator.ctor
          [udpFrame 5 65536 65] = none) ∧
    ((∀ f ∈ List.replicate 2147483648 (udpFrame 5 43 65),
        0 < udp_payload f.pkthdr f.packet_data) ∧
      ∃ s : EntropyAccumulator,
        EntropyAccumulator.accumulateAll 65536 EntropyAccumulator.ctor
          (List.replicate 2147483648 (udpFrame 5 43 65)) = some s ∧
        s.n_packets = -2147483648 ∧
        s.n_packets
          ≠ ((List.replicate 2147483648 (udpFrame 5 43 65)).length : Int)) := by
  refine ⟨⟨by decide, ?_⟩, ⟨?_, ?_⟩⟩
  · intro fuel
    have h := (accumulate_diverges fuel EntropyAccumulator.ctor
      (udpFrame 5 65536 65).pkthdr (udpFrame 5 65536 65).packet_data (by decide)).2
    simp only [EntropyAccumulator.accumulateAll, h]
  · intro f hf
    rw [List.eq_of_mem_replicate hf]
    decide
  · obtain ⟨s, hrun, hn⟩ :=
      entropy_accumulateAll_count 65536 (le_refl _)
        (List.replicate 2147483648 (udpFrame 5 43 65)) EntropyAccumulator.ctor
        (by decide)
        (fun f hf => by rw [List.eq_of_mem_replicate hf]; decide)
    have h0 : EntropyAccumulator.ctor.n_packets = 0 := rfl
    rw [List.length_replicate, h0] at hn
    have hv : wrapInt32 (0 + ((2147483648 : Nat) : Int)) = -2147483648 := by decide
    rw [hv] at hn
    refine ⟨s, hrun, hn, ?_⟩
    rw [hn, List.length_replicate]
    decide

/-! ## Frames without payload -/

/-- A frame whose wire length does not exceed `offset + 8` is accumulated with
per-frame entropy `0`: the scanning loop does not run, the table stays
all-zero and no term is added. -/
theorem entropy_accumulate_no_payload (fuel : Nat) (s : EntropyAccumulator)
    (hdr : pcap_pkthdr) (data : PacketData) (hfuel : 0 < fuel)
    (hsize : (hdr.len : Int) - (payloadOffset data + 8) ≤ 0) :
    frameEntropy fuel hdr data = some 0 ∧
      s.accumulate fuel hdr data = some (s.update 0) := by
  obtain ⟨n, rfl⟩ : ∃ n, fuel = n + 1 := ⟨fuel - 1, by omega⟩
  have hstart := (scanStart_eq data).1
  have hnot : ¬ scanStart data < hdr.len := by omega
  have hfreq : frequencies (n + 1) hdr data = some (fun _ => 0) :=
    scanLoop_of_not_lt n hdr.len (scanStart data) data _ hnot
  have hH : frameEntropy (n + 1) hdr data = some 0 := by
    simp [frameEntropy, hfreq, pkt_entropy_zero_table]
  exact ⟨hH, by simp [EntropyAccumulator.accumulate, hH]⟩

/-- The real total of a table whose integer total is `n`. -/
theorem freq_total_real (freq : Fin 256 → Nat) (n : Int)
    (hsum : ((∑ v, freq v : Nat) : Int) = n) : (∑ v, (freq v : ℝ)) = (n : ℝ) := by
  have h : (((∑ v, freq v : Nat) : Int) : ℝ) = (n : ℝ) := by rw [hsum]
  rw [← h]
  push_cast
  rfl

/-- Every entry of a table is at most its total. -/
theorem freq_le_total (freq : Fin 256 → Nat) (n : Int)
    (hsum : ((∑ v, freq v : Nat) : Int) = n) (v : Fin 256) : (freq v : ℝ) ≤ (n : ℝ) := by
  rw [← freq_total_real freq n hsum]
  exact Finset.single_le_sum (f := fun w => (freq w : ℝ))
    (fun i _ => Nat.cast_nonneg _) (Finset.mem_univ v)

/-- Every term of the entropy sum is non-negative. -/
theorem entropyTerm_nonneg (freq : Fin 256 → Nat) (n : Int) (hpos : 0 < n)
    (hsum : ((∑ v, freq v : Nat) : Int) = n) (v : Fin 256) :
    0 ≤ entropyTerm freq n v := by
  unfold entropyTerm
  split
  · exact le_refl 0
  · rename_i hv
    have hf : (0 : ℝ) < (freq v : ℝ) := by exact_mod_cast Nat.pos_of_ne_zero hv
    have hN : (0 : ℝ) < (n : ℝ) := by exact_mod_cast hpos
    have hle := Real.logb_le_logb_of_le (b := 2) (by norm_num) hf
      (freq_le_total freq n hsum v)
    exact mul_nonneg (le_of_lt (div_pos hf hN)) (by linarith)

/-- Every term of the entropy sum is at most
`(1/256 - p) / log 2 + 8 * p`, where `p = freq v / n`. -/
theorem entropyTerm_le (freq : Fin 256 → Nat) (n : Int) (hpos : 0 < n) (v : Fin 256) :
    entropyTerm freq n v
      ≤ (1 / 256 - (freq v : ℝ) / (n : ℝ)) / Real.log 2 + 8 * ((freq v : ℝ) / (n : ℝ)) := by
  have hL : 0 < Real.log 2 := Real.log_pos (by norm_num)
  have hN : (0 : ℝ) < (n : ℝ) := by exact_mod_cast hpos
  unfold entropyTerm
  split
  · rename_i hv
    rw [hv]
    simp only [Nat.cast_zero, zero_div, sub_zero, mul_zero, add_zero]
    positivity
  · rename_i hv
    have hf : (0 : ℝ) < (freq v : ℝ) := by exact_mod_cast Nat.pos_of_ne_zero hv
    have h256 : Real.log 256 = 8 * Real.log 2 := by
      have : (256 : ℝ) = 2 ^ 8 := by norm_num
      rw [this, Real.log_pow]
      norm_num
    have hx : 0 < (n : ℝ) / (256 * (freq v : ℝ)) := by positivity
    have hlog := Real.log_le_sub_one_of_pos hx
    rw [Real.log_div (ne_of_gt hN) (by positivity),
      Real.log_mul (by norm_num) (ne_of_gt hf), h256] at hlog
    have hp : 0 < (freq v : ℝ) / (n : ℝ) := div_pos hf hN
    have hkey : Real.logb 2 (n : ℝ) - Real.logb 2 (freq v : ℝ)
        ≤ ((n : ℝ) / (256 * (freq v : ℝ)) - 1) / Real.log 2 + 8 := by
      unfold Real.logb
      rw [← sub_div, div_add' _ _ _ (ne_of_gt hL)]
      apply div_le_div_of_nonneg_right _ (le_of_lt hL)
      linarith
    calc (freq v : ℝ) / (n : ℝ) * (Real.logb 2 (n : ℝ) - Real.logb 2 (freq v : ℝ))
        ≤ (freq v : ℝ) / (n : ℝ)
            * (((n : ℝ) / (256 * (freq v : ℝ)) - 1) / Real.log 2 + 8) :=
          mul_le_mul_of_nonneg_left hkey (le_of_lt hp)
      _ = (1 / 256 - (freq v : ℝ) / (n : ℝ)) / Real.log 2 + 8 * ((freq v : ℝ) / (n : ℝ)) := by
          field_simp
          ring

/-- A table with positive total has a non-zero entry. -/
theorem freq_exists_ne_zero (freq : Fin 256 → Nat) (n : Int) (hpos : 0 < n)
    (hsum : ((∑ v, freq v : Nat) : Int) = n) : ∃ v, freq v ≠ 0 := by
  by_contra hcon
  push_neg at hcon
  have : (∑ v, freq v : Nat) = 0 := Finset.sum_eq_zero (fun v _ => hcon v)
  rw [this] at hsum
  simp at hsum
  omega

/-- An entry that equals the total leaves every other entry zero. -/
theorem freq_others_zero (freq : Fin 256 → Nat) (b : Fin 256)
    (hb : freq b = ∑ v, freq v) : ∀ v, v ≠ b → freq v = 0 := by
  intro v hv
  have h1 : ∑ x ∈ ({b, v} : Finset (Fin 256)), freq x ≤ ∑ x, freq x :=
    Finset.sum_le_sum_of_subset (Finset.subset_univ _)
  rw [Finset.sum_pair (Ne.symm hv)] at h1
  omega

/-- The entropy sum of a table with positive total `udp_payload` lies between
0 and 8, and is 0 exactly when every frequency but one is zero. -/
theorem pkt_entropy_bounds (freq : Fin 256 → Nat) (udp_payload : Int)
    (hpos : 0 < udp_payload) (hsum : ((∑ v, freq v : Nat) : Int) = udp_payload) :
    0 ≤ pkt_entropy freq udp_payload ∧ pkt_entropy freq udp_payload ≤ 8 ∧
      (pkt_entropy freq udp_payload = 0 ↔ ∃ b, ∀ v, v ≠ b → freq v = 0) := by
  have hN : (0 : ℝ) < (udp_payload : ℝ) := by exact_mod_cast hpos
  have hL : 0 < Real.log 2 := Real.log_pos (by norm_num)
  have htot := freq_total_real freq udp_payload hsum
  rw [pkt_entropy_eq_sum]
  refine ⟨Finset.sum_nonneg (fun v _ => entropyTerm_nonneg freq udp_payload hpos hsum v),
    ?_, ?_⟩
  · calc ∑ v, entropyTerm freq udp_payload v
        ≤ ∑ v : Fin 256, ((1 / 256 - (freq v : ℝ) / (udp_payload : ℝ)) / Real.log 2
            + 8 * ((freq v : ℝ) / (udp_payload : ℝ))) :=
          Finset.sum_le_sum (fun v _ => entropyTerm_le freq udp_payload hpos v)
      _ = 8 := by
          have hone : ∑ v : Fin 256, (freq v : ℝ) / (udp_payload : ℝ) = 1 := by
            rw [← Finset.sum_div, htot, div_self (ne_of_gt hN)]
          rw [Finset.sum_add_distrib, ← Finset.sum_div, Finset.sum_sub_distrib,
            ← Finset.mul_sum, hone, Finset.sum_const, Finset.card_univ, Fintype.card_fin]
          norm_num
  · rw [Finset.sum_eq_zero_iff_of_nonneg
      (fun v _ => entropyTerm_nonneg freq udp_payload hpos hsum v)]
    constructor
    · intro hall
      obtain ⟨b, hb⟩ := freq_exists_ne_zero freq udp_payload hpos hsum
      refine ⟨b, freq_others_zero freq b ?_⟩
      have hf : (0 : ℝ) < (freq b : ℝ) := by exact_mod_cast Nat.pos_of_ne_zero hb
      have hterm := hall b (Finset.mem_univ b)
      unfold entropyTerm at hterm
      rw [if_neg hb] at hterm
      have hle := freq_le_total freq udp_payload hsum b
      have heq : (freq b : ℝ) = (udp_payload : ℝ) := by
        rcases lt_or_eq_of_le hle with hlt | heq
        · have hlog := Real.logb_lt_logb (b := 2) (by norm_num) hf hlt
          have hp : 0 < (freq b : ℝ) / (udp_payload : ℝ) := div_pos hf hN
          have : 0 < (freq b : ℝ) / (udp_payload : ℝ)
              * (Real.logb 2 (udp_payload : ℝ) - Real.logb 2 (freq b : ℝ)) :=
            mul_pos hp (by linarith)
          linarith
        · exact heq
      have hint : ((freq b : Nat) : Int) = udp_payload := by exact_mod_cast heq
      have := hsum
      omega
    · rintro ⟨b, hb⟩ v _
      unfold entropyTerm
      split
      · rfl
      · rename_i hv
        have hvb : v = b := by
          by_contra hne
          exact hv (hb v hne)
        have hsingle : (∑ w, freq w : Nat) = freq b :=
          Finset.sum_eq_single b (fun w _ hw => hb w hw) (fun h => absurd (Finset.mem_univ b) h)
        have heq : (freq v : ℝ) = (udp_payload : ℝ) := by
          rw [hvb, ← htot]
          have : ((∑ w, freq w : Nat) : ℝ) = (freq b : ℝ) := by rw [hsingle]
          rw [← this]
          push_cast
          rfl
        rw [heq]
        simp

theorem byteCount_step (data : PacketData) (lo hi : Nat) (v : Fin 256) (h : lo < hi) :
    byteCount data lo hi v = (if data lo = v then 1 else 0) + byteCount data (lo + 1) hi v := by
  unfold byteCount
  rw [← Nat.Ico_insert_succ_left h, Finset.filter_insert]
  simp only [Nat.succ_eq_add_one]
  split
  · rw [Finset.card_insert_of_not_mem (by simp)]; omega
  · simp

theorem byteCount_empty (data : PacketData) (lo hi : Nat) (v : Fin 256) (h : hi ≤ lo) :
    byteCount data lo hi v = 0 := by
  unfold byteCount
  rw [Finset.Ico_eq_empty_of_le h]
  rfl

/-- The counts over all byte values add up to the number of offsets. -/
theorem byteCount_total (data : PacketData) (lo hi : Nat) :
    ∑ v, byteCount data lo hi v = hi - lo := by
  unfold byteCount
  rw [← Finset.card_eq_sum_card_fiberwise (f := data) (s := Finset.Ico lo hi)
    (t := Finset.univ) (fun x _ => Finset.mem_univ _), Nat.card_Ico]

/-- For a wire length of at most 65535 the loop adds to each entry the number
of offsets from `i` up to the wire length that hold that byte value. -/
theorem scanLoop_eq (fuel len : Nat) (data : PacketData) (hlen : len ≤ 65535) :
    ∀ (i : Nat) (freq : Fin 256 → Nat), len - i < fuel →
      scanLoop fuel len data i freq = some (fun v => freq v + byteCount data i len v) := by
  induction fuel with
  | zero => intro i freq h; omega
  | succ n ih =>
    intro i freq h
    by_cases hi : i < len
    · have hmod : (i + 1) % 65536 = i + 1 := Nat.mod_eq_of_lt (by omega)
      simp only [scanLoop, hi, if_true, hmod]
      rw [ih (i + 1) _ (by omega)]
      congr 1
      funext v
      rw [byteCount_step data i len v hi]
      by_cases hv : data i = v
      · subst hv
        simp only [Function.update_same, if_true]
        omega
      · rw [Function.update_noteq (Ne.symm hv), if_neg hv]
        omega
    · rw [scanLoop_of_not_lt n len i data freq hi]
      congr 1
      funext v
      rw [byteCount_empty data i len v (by omega)]
      rfl

/-- The table of a frame of wire length at most 65535: entry `v` is the number
of offsets from `offset + 8` up to the wire length that hold `v`. -/
theorem frequencies_eq (fuel : Nat) (hdr : pcap_pkthdr) (data : PacketData)
    (hlen : hdr.len ≤ 65535) (hfuel : hdr.len < fuel) :
    frequencies fuel hdr data = some (byteCount data (scanStart data) hdr.len) := by
  unfold frequencies
  rw [scanLoop_eq fuel hdr.len data hlen _ _ (by omega)]
  congr 1
  funext v
  simp

/-- For every frame of wire length at most 65535 and positive payload size,
the per-frame entropy is produced, lies between 0 and 8, and is 0 exactly when
all payload bytes are equal. -/
theorem frameEntropy_bounds (fuel : Nat) (hdr : pcap_pkthdr) (data : PacketData)
    (hlen : hdr.len ≤ 65535) (hfuel : hdr.len < fuel)
    (hpos : 0 < udp_payload hdr data) :
    ∃ H, frameEntropy fuel hdr data = some H ∧ 0 ≤ H ∧ H ≤ 8 ∧
      (H = 0 ↔ ∃ b, ∀ i, scanStart data ≤ i → i < hdr.len → data i = b) := by
  have hfreq := frequencies_eq fuel hdr data hlen hfuel
  have hstart := scanStart_eq data
  have hpay := udp_payload_eq hdr data hlen
  have hsum : ((∑ v, byteCount data (scanStart data) hdr.len v : Nat) : Int)
      = udp_payload hdr data := by
    rw [byteCount_total]
    omega
  obtain ⟨h0, h8, hiff⟩ :=
    pkt_entropy_bounds (byteCount data (scanStart data) hdr.len) (udp_payload hdr data)
      hpos hsum
  refine ⟨_, by simp [frameEntropy, hfreq], h0, h8, ?_⟩
  rw [hiff]
  constructor
  · rintro ⟨b, hb⟩
    refine ⟨b, fun i hi1 hi2 => ?_⟩
    by_contra hne
    have hz := hb (data i) hne
    unfold byteCount at hz
    rw [Finset.card_eq_zero, Finset.filter_eq_empty_iff] at hz
    exact hz (Finset.mem_Ico.mpr ⟨hi1, hi2⟩) rfl
  · rintro ⟨b, hb⟩
    refine ⟨b, fun v hv => ?_⟩
    unfold byteCount
    rw [Finset.card_eq_zero, Finset.filter_eq_empty_iff]
    intro i hi heq
    have := Finset.mem_Ico.mp hi
    exact hv (by rw [← heq, hb i this.1 this.2])

/-! ## Size statistics: timestamps, bitrate, average, reset -/

/-- Once `first` holds a non-zero second, no later `accumulate` changes it. -/
theorem size_first_kept (frames : List Frame) (s : SizeAccumulator)
    (h : s.first.tv_sec ≠ 0) : (s.accumulateAll frames).first = s.first := by
  induction frames generalizing s with
  | nil => rfl
  | cons f fs ih =>
    rw [size_accumulateAll_cons]
    have hstep : (s.accumulate f.pkthdr f.packet_data).first = s.first := by
      simp [SizeAccumulator.accumulate, h]
    rw [ih _ (by rw [hstep]; exact h), hstep]

/-- From the constructed state, when the timestamp of the first frame has a
non-zero second, `first` is that timestamp after the whole run. -/
theorem size_first_is_first (f : Frame) (fs : List Frame) (h : f.pkthdr.ts.tv_sec ≠ 0) :
    (SizeAccumulator.ctor.accumulateAll (f :: fs)).first = f.pkthdr.ts := by
  rw [size_accumulateAll_cons]
  have hstep : (SizeAccumulator.ctor.accumulate f.pkthdr f.packet_data).first = f.pkthdr.ts := by
    simp [SizeAccumulator.accumulate, SizeAccumulator.ctor]
  rw [size_first_kept fs _ (by rw [hstep]; exact h), hstep]

/-- After a run that ends with frame `f`, `last` is the timestamp of `f`. -/
theorem size_last_is_last (s : SizeAccumulator) (fs : List Frame) (f : Frame) :
    (s.accumulateAll (fs ++ [f])).last = f.pkthdr.ts := by
  rw [size_accumulateAll_append]
  rfl

/-- C8 (failing input): a frame stamped `0 s 500000 us` followed by a frame
stamped `1 s 0 us`. The second call finds `first.tv_sec == 0` and overwrites
`first`: after the run `first` is the timestamp of the second frame, not of the
first; `last` is the timestamp of the last frame. -/
theorem C8_first_overwritten :
    (SizeAccumulator.ctor.accumulateAll
        [timedFrame 0 500000 100, timedFrame 1 0 100]).first = ⟨1, 0⟩ ∧
      (timedFrame 0 500000 100).pkthdr.ts = ⟨0, 500000⟩ ∧
      (SizeAccumulator.ctor.accumulateAll
        [timedFrame 0 500000 100, timedFrame 1 0 100]).first
        ≠ (timedFrame 0 500000 100).pkthdr.ts ∧
      (SizeAccumulator.ctor.accumulateAll
        [timedFrame 0 500000 100, timedFrame 1 0 100]).last
        = (timedFrame 1 0 100).pkthdr.ts := by
  refine ⟨?_, ?_, ?_, ?_⟩ <;> decide

/-- The value of `get_bitrate` in terms of the 32-bit window. -/
theorem size_get_bitrate_eq (s : SizeAccumulator) :
    (s.get_bitrate : Int)
      = if (s.last.tv_sec - s.first.tv_sec) % 4294967296 = 0 then 0
        else Int.tdiv (Int.tdiv (s.total_size : Int)
          ((s.last.tv_sec - s.first.tv_sec) % 4294967296)) 1000 := by
  have hw : 0 ≤ (s.last.tv_sec - s.first.tv_sec) % 4294967296 :=
    Int.emod_nonneg _ (by decide)
  obtain ⟨w, hw2⟩ := Int.eq_ofNat_of_zero_le hw
  unfold SizeAccumulator.get_bitrate
  simp only [hw2, Int.toNat_ofNat]
  by_cases h0 : w = 0
  · simp [h0]
  · have h1 : ¬ ((w : Int) = 0) := by exact_mod_cast h0
    rw [if_neg h0, if_neg h1, ← Int.ofNat_tdiv s.total_size w]
    exact Int.ofNat_tdiv (s.total_size / w) 1000

/-- C7 (as amended): for every state, with `window` the difference
`last.tv_sec - first.tv_sec` reduced modulo `2^32` (it is stored in a
`u_int32_t`), `get_bitrate` returns 0 when `window` is 0 and otherwise
`(total_size / window) / 1000` with truncating division. -/
theorem C7_bitrate_window (s : SizeAccumulator) :
    (s.get_bitrate : Int)
      = if (s.last.tv_sec - s.first.tv_sec) % 4294967296 = 0 then 0
        else Int.tdiv (Int.tdiv (s.total_size : Int)
          ((s.last.tv_sec - s.first.tv_sec) % 4294967296)) 1000 :=
  size_get_bitrate_eq s

/-- When the difference of the seconds lies in `[0, 2^32)`, `get_bitrate` is 0
for a zero difference and `(total_size / elapsed) / 1000` otherwise. -/
theorem size_get_bitrate_in_range (s : SizeAccumulator)
    (h0 : 0 ≤ s.last.tv_sec - s.first.tv_sec)
    (h1 : s.last.tv_sec - s.first.tv_sec < 4294967296) :
    (s.get_bitrate : Int)
      = if s.last.tv_sec - s.first.tv_sec = 0 then 0
        else Int.tdiv (Int.tdiv (s.total_size : Int)
          (s.last.tv_sec - s.first.tv_sec)) 1000 := by
  rw [size_get_bitrate_eq, Int.emod_eq_of_lt h0 h1]

/-- C7 counterexample. Two frames of 2500 bytes stamped at second 5 and then
second 4: `elapsed` is `-1`, the claimed value is `(5000 / -1) / 1000 = -5`,
`get_bitrate` returns 0. Two frames stamped at second 1 and second
`2^32 + 2`: `elapsed` is `2^32 + 1`, the claimed value is 0, `get_bitrate`
returns 5. -/
theorem C7_counterexample :
    ((SizeAccumulator.ctor.accumulateAll [plainFrame 5 2500, plainFrame 4 2500]).last.tv_sec
        - (SizeAccumulator.ctor.accumulateAll
            [plainFrame 5 2500, plainFrame 4 2500]).first.tv_sec = -1 ∧
      (SizeAccumulator.ctor.accumulateAll
        [plainFrame 5 2500, plainFrame 4 2500]).total_size = 5000 ∧
      (SizeAccumulator.ctor.accumulateAll
        [plainFrame 5 2500, plainFrame 4 2500]).get_bitrate = 0 ∧
      Int.tdiv (Int.tdiv 5000 (-1)) 1000 = -5) ∧
    ((SizeAccumulator.ctor.accumulateAll
        [plainFrame 1 2500, plainFrame 4294967298 2500]).last.tv_sec
        - (SizeAccumulator.ctor.accumulateAll
            [plainFrame 1 2500, plainFrame 4294967298 2500]).first.tv_sec = 4294967297 ∧
      (SizeAccumulator.ctor.accumulateAll
        [plainFrame 1 2500, plainFrame 4294967298 2500]).total_size = 5000 ∧
      (SizeAccumulator.ctor.accumulateAll
        [plainFrame 1 2500, plainFrame 4294967298 2500]).get_bitrate = 5 ∧
      Int.tdiv (Int.tdiv 5000 4294967297) 1000 = 0) := by
  refine ⟨⟨?_, ?_, ?_, ?_⟩, ⟨?_, ?_, ?_, ?_⟩⟩ <;> decide

/-- C9: for every state, `get_avg_size` is the truncating quotient
`total_size / n_packets` when `n_packets` is not 0 and 0 when it is; the
quotient is only formed with a non-zero divisor and never exceeds
`total_size`. -/
theorem C9_avg_size (s : SizeAccumulator) :
    s.get_avg_size = (if s.n_packets = 0 then 0 else s.total_size / s.n_packets) ∧
      ((s.get_avg_size : Int)
        = if (s.n_packets : Int) = 0 then 0
          else Int.tdiv (s.total_size : Int) (s.n_packets : Int)) ∧
      s.get_avg_size ≤ s.total_size := by
  refine ⟨rfl, ?_, ?_⟩
  · unfold SizeAccumulator.get_avg_size
    by_cases h : s.n_packets = 0
    · simp [h]
    · have h1 : ¬ ((s.n_packets : Int) = 0) := by exact_mod_cast h
      rw [if_neg h, if_neg h1, ← Int.ofNat_tdiv]
  · unfold SizeAccumulator.get_avg_size
    split
    · exact Nat.zero_le _
    · exact Nat.div_le_self _ _

/-- C10: from every state, `SizeAccumulator.reset` yields the constructed
state (total_size 0, n_packets 0, largest 0, smallest 65515, first and last
`{0, 0}`), `EntropyAccumulator.reset` yields avg_entropy 0 and n_packets 0,
and after a reset with no `accumulate` call `get_avg_size`, `get_bitrate` and
the entropy `get_data` are all 0. -/
theorem C10_reset (s : SizeAccumulator) (e : EntropyAccumulator) :
    s.reset = SizeAccumulator.ctor ∧
      s.reset = ⟨0, 0, 65515, 0, ⟨0, 0⟩, ⟨0, 0⟩⟩ ∧
      s.reset.total_size = 0 ∧ s.reset.n_packets = 0 ∧ s.reset.largest = 0 ∧
      s.reset.smallest = 65515 ∧ s.reset.first = ⟨0, 0⟩ ∧ s.reset.last = ⟨0, 0⟩ ∧
      e.reset = EntropyAccumulator.ctor ∧
      e.reset.avg_entropy = 0 ∧ e.reset.n_packets = 0 ∧
      (s.reset.accumulateAll []).get_avg_size = 0 ∧
      (s.reset.accumulateAll []).get_bitrate = 0 ∧
      e.reset.get_data = 0 ∧
      EntropyAccumulator.accumulateAll 0 e.reset [] = some e.reset := by
  refine ⟨rfl, rfl, rfl, rfl, rfl, rfl, rfl, rfl, rfl, rfl, rfl, rfl, rfl, rfl, rfl⟩

/-! ## The window coordinator -/

/-- A run of the entropy accumulator over frames of wire length at most 65535
always ends. -/
theorem entropy_accumulateAll_isSome (fuel : Nat) (hfuel : 65536 ≤ fuel) (frames : List Frame) :
    ∀ s : EntropyAccumulator, (∀ f ∈ frames, f.pkthdr.len ≤ 65535) →
      ∃ s2, EntropyAccumulator.accumulateAll fuel s frames = some s2 := by
  induction frames with
  | nil => intro s _; exact ⟨s, rfl⟩
  | cons f fs ih =>
    intro s hlen
    obtain ⟨H, -, hacc⟩ := entropy_accumulate_isSome fuel s f.pkthdr f.packet_data
      (hlen f (List.mem_cons_self _ _)) (by have := hlen f (List.mem_cons_self _ _); omega)
    obtain ⟨s2, hrun⟩ := ih (s.update H) (fun g hg => hlen g (List.mem_cons_of_mem _ hg))
    exact ⟨s2, by simp [EntropyAccumulator.accumulateAll, hacc, hrun]⟩

/-- A run over `fs ++ [f]` is the run over `fs` followed by one `accumulate`. -/
theorem entropy_accumulateAll_snoc (fuel : Nat) (f : Frame) (fs : List Frame) :
    ∀ s s1 : EntropyAccumulator, EntropyAccumulator.accumulateAll fuel s fs = some s1 →
      EntropyAccumulator.accumulateAll fuel s (fs ++ [f])
        = s1.accumulate fuel f.pkthdr f.packet_data := by
  induction fs with
  | nil =>
    intro s s1 h
    simp only [EntropyAccumulator.accumulateAll, Option.some.injEq] at h
    subst h
    simp only [List.nil_append, EntropyAccumulator.accumulateAll]
    cases s.accumulate fuel f.pkthdr f.packet_data <;> rfl
  | cons g gs ih =>
    intro s s1 h
    simp only [List.cons_append, EntropyAccumulator.accumulateAll] at h ⊢
    cases hg : s.accumulate fuel g.pkthdr g.packet_data with
    | none => rw [hg] at h; simp at h
    | some s3 =>
      rw [hg] at h
      simp only at h ⊢
      exact ih s3 s1 h

/-- The handler on a call that does not close the window: both accumulators
take the frame, nothing is printed, `stamp` is kept. -/
theorem pkt_handler_quiet (fuel : Nat) (pm : PacketManager) (hdr : pcap_pkthdr)
    (data : PacketData) (clock clock2 : Int) (e : EntropyAccumulator)
    (hacc : pm.entropy_acc.accumulate fuel hdr data = some e)
    (hclock : ¬ clock - pm.stamp > 1) :
    pm.pkt_handler fuel hdr data clock clock2
      = some (⟨pm.size_acc.accumulate hdr data, e, pm.stamp⟩, []) := by
  simp [PacketManager.pkt_handler, hacc, hclock]

/-- The handler on a call that closes the window: both accumulators take the
frame, one summary of their values is printed, both are reset and `stamp`
takes the second clock reading. -/
theorem pkt_handler_fire (fuel : Nat) (pm : PacketManager) (hdr : pcap_pkthdr)
    (data : PacketData) (clock clock2 : Int) (e : EntropyAccumulator)
    (hacc : pm.entropy_acc.accumulate fuel hdr data = some e)
    (hclock : clock - pm.stamp > 1) :
    pm.pkt_handler fuel hdr data clock clock2
      = some (⟨SizeAccumulator.ctor, EntropyAccumulator.ctor, clock2⟩,
          [PacketManager.print_data ⟨pm.size_acc.accumulate hdr data, e, clock2⟩]) := by
  simp only [PacketManager.pkt_handler, hacc, hclock, if_true]
  rfl

/-- A run of handler calls none of which closes the window prints nothing and
leaves both accumulators holding exactly the delivered frames. -/
theorem manager_run_quiet (fuel : Nat) (hfuel : 65536 ≤ fuel) (ds : List Delivery) :
    ∀ pm : PacketManager, (∀ d ∈ ds, d.frame.pkthdr.len ≤ 65535) →
      (∀ d ∈ ds, ¬ d.clock - pm.stamp > 1) →
      ∃ e : EntropyAccumulator,
        EntropyAccumulator.accumulateAll fuel pm.entropy_acc (deliveredFrames ds) = some e ∧
        PacketManager.run fuel pm ds
          = some (⟨pm.size_acc.accumulateAll (deliveredFrames ds), e, pm.stamp⟩, []) := by
  induction ds with
  | nil => intro pm _ _; exact ⟨pm.entropy_acc, rfl, rfl⟩
  | cons d ds ih =>
    intro pm hlen hquiet
    have hd := hlen d (List.mem_cons_self _ _)
    obtain ⟨H, -, hacc⟩ := entropy_accumulate_isSome fuel pm.entropy_acc d.frame.pkthdr
      d.frame.packet_data hd (by omega)
    have hstep := pkt_handler_quiet fuel pm d.frame.pkthdr d.frame.packet_data d.clock
      d.clock2 _ hacc (hquiet d (List.mem_cons_self _ _))
    obtain ⟨e, he, hrun⟩ := ih
      ⟨pm.size_acc.accumulate d.frame.pkthdr d.frame.packet_data, pm.entropy_acc.update H,
        pm.stamp⟩
      (fun x hx => hlen x (List.mem_cons_of_mem _ hx))
      (fun x hx => hquiet x (List.mem_cons_of_mem _ hx))
    refine ⟨e, ?_, ?_⟩
    · simp only [deliveredFrames, List.map_cons, EntropyAccumulator.accumulateAll, hacc]
      exact he
    · simp only [PacketManager.run, hstep, hrun]
      rfl

/-- A run over `ds ++ [d]` is the run over `ds` followed by one handler call. -/
theorem manager_run_snoc (fuel : Nat) (d : Delivery) (ds : List Delivery) :
    ∀ (pm pm1 : PacketManager) (out : List Statistics),
      PacketManager.run fuel pm ds = some (pm1, out) →
      PacketManager.run fuel pm (ds ++ [d])
        = (pm1.pkt_handler fuel d.frame.pkthdr d.frame.packet_data d.clock d.clock2).map
            (fun r => (r.1, out ++ r.2)) := by
  induction ds with
  | nil =>
    intro pm pm1 out h
    simp only [PacketManager.run, Option.some.injEq, Prod.mk.injEq] at h
    obtain ⟨rfl, rfl⟩ := h
    simp only [List.nil_append, PacketManager.run]
    cases pm.pkt_handler fuel d.frame.pkthdr d.frame.packet_data d.clock d.clock2 with
    | none => rfl
    | some r => obtain ⟨a, b⟩ := r; simp
  | cons x xs ih =>
    intro pm pm1 out h
    simp only [List.cons_append, PacketManager.run] at h ⊢
    cases hx : pm.pkt_handler fuel x.frame.pkthdr x.frame.packet_data x.clock x.clock2 with
    | none => rw [hx] at h; simp at h
    | some r =>
      obtain ⟨pm2, out2⟩ := r
      rw [hx] at h
      simp only at h ⊢
      cases hxs : PacketManager.run fuel pm2 xs with
      | none => rw [hxs] at h; simp at h
      | some r2 =>
        obtain ⟨pm3, out3⟩ := r2
        rw [hxs] at h
        simp only [Option.some.injEq, Prod.mk.injEq] at h
        obtain ⟨rfl, rfl⟩ := h
        rw [List.append_eq, ih pm2 pm3 out3 hxs]
        cases pm3.pkt_handler fuel d.frame.pkthdr d.frame.packet_data d.clock d.clock2 with
        | none => rfl
        | some r3 => obtain ⟨a, b⟩ := r3; simp

/-- Window closure. From a boundary stamped `t0` with both accumulators in
their constructed state, after deliveries `pre` that do not close the window
the delivery `dj` with `dj.clock - t0 > 1` prints exactly one summary, read
from the accumulators after they took every frame of `pre` and the frame of
`dj` itself, and leaves both accumulators in their constructed state. -/
theorem manager_window_closure (fuel : Nat) (t0 : Int) (pre : List Delivery) (dj : Delivery)
    (hfuel : 65536 ≤ fuel)
    (hlen : ∀ d ∈ pre ++ [dj], d.frame.pkthdr.len ≤ 65535)
    (hquiet : ∀ d ∈ pre, ¬ d.clock - t0 > 1) (hfire : dj.clock - t0 > 1) :
    ∃ e_pre e_all : EntropyAccumulator,
      EntropyAccumulator.accumulateAll fuel EntropyAccumulator.ctor (deliveredFrames pre)
        = some e_pre ∧
      EntropyAccumulator.accumulateAll fuel EntropyAccumulator.ctor
        (deliveredFrames (pre ++ [dj])) = some e_all ∧
      PacketManager.run fuel (PacketManager.ctor t0) pre
        = some (⟨SizeAccumulator.ctor.accumulateAll (deliveredFrames pre), e_pre, t0⟩, []) ∧
      PacketManager.run fuel (PacketManager.ctor t0) (pre ++ [dj])
        = some (⟨SizeAccumulator.ctor, EntropyAccumulator.ctor, dj.clock2⟩,
            [PacketManager.print_data
              ⟨SizeAccumulator.ctor.accumulateAll (deliveredFrames (pre ++ [dj])), e_all,
                dj.clock2⟩]) := by
  obtain ⟨e_pre, he_pre0, hrun0⟩ := manager_run_quiet fuel hfuel pre (PacketManager.ctor t0)
    (fun d hd => hlen d (List.mem_append_left _ hd)) hquiet
  have he_pre : EntropyAccumulator.accumulateAll fuel EntropyAccumulator.ctor
      (deliveredFrames pre) = some e_pre := he_pre0
  have hrun : PacketManager.run fuel (PacketManager.ctor t0) pre
      = some (⟨SizeAccumulator.ctor.accumulateAll (deliveredFrames pre), e_pre, t0⟩, []) :=
    hrun0
  have hdj : dj.frame.pkthdr.len ≤ 65535 :=
    hlen dj (List.mem_append_right _ (List.mem_singleton_self dj))
  obtain ⟨H, -, hacc⟩ := entropy_accumulate_isSome fuel e_pre dj.frame.pkthdr
    dj.frame.packet_data hdj (by omega)
  have hframes : deliveredFrames (pre ++ [dj]) = deliveredFrames pre ++ [dj.frame] := by
    simp [deliveredFrames]
  have he_all : EntropyAccumulator.accumulateAll fuel EntropyAccumulator.ctor
      (deliveredFrames (pre ++ [dj])) = some (e_pre.update H) := by
    rw [hframes, entropy_accumulateAll_snoc fuel dj.frame (deliveredFrames pre) _ e_pre he_pre,
      hacc]
  refine ⟨e_pre, e_pre.update H, he_pre, he_all, hrun, ?_⟩
  rw [manager_run_snoc fuel dj pre _ _ _ hrun]
  have hfire2 := pkt_handler_fire fuel
    ⟨SizeAccumulator.ctor.accumulateAll (deliveredFrames pre), e_pre, t0⟩
    dj.frame.pkthdr dj.frame.packet_data dj.clock dj.clock2 _ hacc hfire
  rw [hfire2, hframes, size_accumulateAll_append]
  rfl

/-- C6 (as amended): from a boundary stamped `t0` with both accumulators in
their constructed state, over frames of wire length at most 65535, let `pre`
be the deliveries before the first one, `dj`, whose clock reading exceeds
`t0` by more than 1. No summary is printed during `pre`; exactly one summary
is printed on delivering `dj`; the accumulator values read for it are those
after accumulating every frame of `pre` and the frame of `dj` itself; after
the call both accumulators equal their constructed (reset) state. -/
theorem C6_window_closure (fuel : Nat) (t0 : Int) (pre : List Delivery) (dj : Delivery)
    (hfuel : 65536 ≤ fuel)
    (hlen : ∀ d ∈ pre ++ [dj], d.frame.pkthdr.len ≤ 65535)
    (hquiet : ∀ d ∈ pre, ¬ d.clock - t0 > 1) (hfire : dj.clock - t0 > 1) :
    ∃ e_pre e_all : EntropyAccumulator,
      EntropyAccumulator.accumulateAll fuel EntropyAccumulator.ctor (deliveredFrames pre)
        = some e_pre ∧
      EntropyAccumulator.accumulateAll fuel EntropyAccumulator.ctor
        (deliveredFrames (pre ++ [dj])) = some e_all ∧
      PacketManager.run fuel (PacketManager.ctor t0) pre
        = some (⟨SizeAccumulator.ctor.accumulateAll (deliveredFrames pre), e_pre, t0⟩, []) ∧
      PacketManager.run fuel (PacketManager.ctor t0) (pre ++ [dj])
        = some (⟨SizeAccumulator.ctor, EntropyAccumulator.ctor, dj.clock2⟩,
            [PacketManager.print_data
              ⟨SizeAccumulator.ctor.accumulateAll (deliveredFrames (pre ++ [dj])), e_all,
                dj.clock2⟩]) :=
  manager_window_closure fuel t0 pre dj hfuel hlen hquiet hfire

/-- C6 witness: a boundary at second 10, frames delivered at seconds 10 and
11, and the closing frame delivered at second 12. -/
theorem C6_window_closure_witness :
    ∃ e_pre e_all : EntropyAccumulator,
      EntropyAccumulator.accumulateAll 65536 EntropyAccumulator.ctor
        (deliveredFrames [udpDelivery 10 100 65, udpDelivery 11 200 65]) = some e_pre ∧
      EntropyAccumulator.accumulateAll 65536 EntropyAccumulator.ctor
        (deliveredFrames ([udpDelivery 10 100 65, udpDelivery 11 200 65]
          ++ [udpDelivery 12 300 65])) = some e_all ∧
      PacketManager.run 65536 (PacketManager.ctor 10)
          [udpDelivery 10 100 65, udpDelivery 11 200 65]
        = some (⟨SizeAccumulator.ctor.accumulateAll
            (deliveredFrames [udpDelivery 10 100 65, udpDelivery 11 200 65]), e_pre, 10⟩, []) ∧
      PacketManager.run 65536 (PacketManager.ctor 10)
          ([udpDelivery 10 100 65, udpDelivery 11 200 65] ++ [udpDelivery 12 300 65])
        = some (⟨SizeAccumulator.ctor, EntropyAccumulator.ctor, (udpDelivery 12 300 65).clock2⟩,
            [PacketManager.print_data
              ⟨SizeAccumulator.ctor.accumulateAll
                (deliveredFrames ([udpDelivery 10 100 65, udpDelivery 11 200 65]
                  ++ [udpDelivery 12 300 65])), e_all,
                (udpDelivery 12 300 65).clock2⟩]) :=
  C6_window_closure 65536 10 [udpDelivery 10 100 65, udpDelivery 11 200 65]
    (udpDelivery 12 300 65) (by decide) (by decide) (by decide) (by decide)

/-- The handler never returns on a frame of wire length 65536 or more. -/
theorem pkt_handler_diverges (fuel : Nat) (pm : PacketManager) (hdr : pcap_pkthdr)
    (data : PacketData) (clock clock2 : Int) (hlen : 65536 ≤ hdr.len) :
    pm.pkt_handler fuel hdr data clock clock2 = none := by
  have h := (accumulate_diverges fuel pm.entropy_acc hdr data hlen).2
  simp [PacketManager.pkt_handler, h]

/-- C6 counterexample: a boundary at second 10, one frame of 100 bytes
delivered at second 10 and one of 200 bytes delivered at second 12 (`j = 1`).
The one summary printed on the second delivery reports 300 bytes in 2 packets,
whereas frames `0..j-1` alone amount to 100 bytes in 1 packet. And when the
frame delivered at second 10 has wire length 65536 the run never returns, so
no summary is printed at all. -/
theorem C6_counterexample :
    (∃ (pm : PacketManager) (st : Statistics),
      PacketManager.run 65536 (PacketManager.ctor 10)
          [udpDelivery 10 100 65, udpDelivery 12 200 65] = some (pm, [st]) ∧
      st.size = 300 ∧ st.n_packets = 2 ∧
      (SizeAccumulator.ctor.accumulateAll
        (deliveredFrames [udpDelivery 10 100 65])).get_data = 100 ∧
      (SizeAccumulator.ctor.accumulateAll
        (deliveredFrames [udpDelivery 10 100 65])).get_n_packets = 1) ∧
    (∀ fuel : Nat,
      PacketManager.run fuel (PacketManager.ctor 10)
          [udpDelivery 10 65536 65, udpDelivery 12 200 65] = none) := by
  obtain ⟨e_pre, e_all, -, -, -, hrun⟩ :=
    manager_window_closure 65536 10 [udpDelivery 10 100 65] (udpDelivery 12 200 65)
      (by decide) (by decide) (by decide) (by decide)
  refine ⟨⟨_, _, hrun, ?_, ?_, ?_, ?_⟩, ?_⟩
  · show (SizeAccumulator.ctor.accumulateAll
      (deliveredFrames ([udpDelivery 10 100 65] ++ [udpDelivery 12 200 65]))).get_data = 300
    decide
  · show (SizeAccumulator.ctor.accumulateAll
      (deliveredFrames ([udpDelivery 10 100 65] ++ [udpDelivery 12 200 65]))).get_n_packets = 2
    decide
  · decide
  · decide
  · intro fuel
    have h := pkt_handler_diverges fuel (PacketManager.ctor 10)
      (udpDelivery 10 65536 65).frame.pkthdr (udpDelivery 10 65536 65).frame.packet_data
      (udpDelivery 10 65536 65).clock (udpDelivery 10 65536 65).clock2 (by decide)
    simp only [PacketManager.run, h]

/-! ## Size statistics depend on the header only -/

/-- C13: for every state and every two frames with the same wire length and
timestamp, whatever their byte contents (and captured lengths),
`SizeAccumulator.accumulate` produces the same state. -/
theorem C13_size_ignores_bytes (s : SizeAccumulator) (hdr1 hdr2 : pcap_pkthdr)
    (data1 data2 : PacketData) (hlen : hdr1.len = hdr2.len) (hts : hdr1.ts = hdr2.ts) :
    s.accumulate hdr1 data1 = s.accumulate hdr2 data2 := by
  simp only [SizeAccumulator.accumulate, hlen, hts]

/-- C13 witness: a 100-byte frame captured whole with bytes `0x41`, and the
same frame truncated to 20 captured bytes with all bytes zero. -/
theorem C13_size_ignores_bytes_witness :
    SizeAccumulator.ctor.accumulate (udpFrame 5 100 65).pkthdr (udpFrame 5 100 65).packet_data
      = SizeAccumulator.ctor.accumulate ⟨⟨5, 0⟩, 20, 100⟩ (fun _ => 0) :=
  C13_size_ignores_bytes SizeAccumulator.ctor (udpFrame 5 100 65).pkthdr ⟨⟨5, 0⟩, 20, 100⟩
    (udpFrame 5 100 65).packet_data (fun _ => 0) (by decide) (by decide)

/-- C18: from the constructed state, after any sequence of frames `total_size`
is the sum of the wire lengths modulo `2^32` and `n_packets` is the number of
frames modulo `2^32`. -/
theorem C18_counters_wrap (frames : List Frame) :
    (SizeAccumulator.ctor.accumulateAll frames).total_size
        = (wireLengths frames).sum % 4294967296 ∧
      (SizeAccumulator.ctor.accumulateAll frames).n_packets
        = frames.length % 4294967296 := by
  obtain ⟨h1, h2⟩ := size_counters_accumulateAll frames SizeAccumulator.ctor
  obtain ⟨b1, b2⟩ := size_counters_lt frames SizeAccumulator.ctor (by decide) (by decide)
  have e1 : SizeAccumulator.ctor.n_packets = 0 := rfl
  have e2 : SizeAccumulator.ctor.total_size = 0 := rfl
  rw [e1, Nat.zero_add, Nat.mod_eq_of_lt b1] at h1
  rw [e2, Nat.zero_add, Nat.mod_eq_of_lt b2] at h2
  exact ⟨h2, h1⟩

/-! ## Termination of the entropy accumulator -/

/-- The entropy `accumulate` returns exactly on the frames of wire length at
most 65535. -/
theorem accumulate_returns_iff (s : EntropyAccumulator) (hdr : pcap_pkthdr)
    (data : PacketData) :
    (∃ fuel s2, s.accumulate fuel hdr data = some s2) ↔ hdr.len ≤ 65535 := by
  constructor
  · rintro ⟨fuel, s2, h⟩
    by_contra hlen
    rw [(accumulate_diverges fuel s hdr data (by omega)).2] at h
    exact Option.noConfusion h
  · intro hlen
    obtain ⟨H, -, hacc⟩ := entropy_accumulate_isSome 65536 s hdr data hlen (by omega)
    exact ⟨65536, _, hacc⟩

/-- C12 (failing input): a frame of wire length 65549 with header-length
nibble 5. The loop index of lines 199-202 is 16 bits wide and therefore always
below the wire length: whatever the fuel and the accumulator state,
`accumulate` does not return. -/
theorem C12_accumulate_never_returns :
    ∀ (fuel : Nat) (s : EntropyAccumulator),
      frequencies fuel (udpFrame 5 65549 65).pkthdr (udpFrame 5 65549 65).packet_data = none ∧
      s.accumulate fuel (udpFrame 5 65549 65).pkthdr (udpFrame 5 65549 65).packet_data
        = none := by
  intro fuel s
  refine ⟨?_, (accumulate_diverges fuel s _ _ (by decide)).2⟩
  exact scanLoop_diverges _ _ (by decide) fuel _ _ (by decide)

/-! ## The handler, step by step -/

/-- The handler in one equation, for any two clock readings: it returns when
the entropy `accumulate` does, and then either closes the window or not. -/
theorem pkt_handler_eq (fuel : Nat) (pm : PacketManager) (hdr : pcap_pkthdr)
    (data : PacketData) (clock clock2 : Int) :
    pm.pkt_handler fuel hdr data clock clock2
      = (pm.entropy_acc.accumulate fuel hdr data).map (fun e =>
          if clock - pm.stamp > 1 then
            (⟨(pm.size_acc.accumulate hdr data).reset, e.reset, clock2⟩,
              [PacketManager.print_data ⟨pm.size_acc.accumulate hdr data, e, clock2⟩])
          else (⟨pm.size_acc.accumulate hdr data, e, pm.stamp⟩, [])) := by
  unfold PacketManager.pkt_handler
  cases pm.entropy_acc.accumulate fuel hdr data with
  | none => rfl
  | some e =>
    by_cases hc : clock - pm.stamp > 1
    · simp only [hc, if_true, Option.map_some']
    · simp only [hc, if_false, Option.map_some']

/-- C14 (as amended): for every state, every frame of wire length at most
65535 and the two clock readings of the call, `now` (the `std::time(nullptr)`
of the test) and `now2` (the `std::time(&stamp)` that follows), `pkt_handler`
returns; it applies both `accumulate` methods to the frame; then, if
`now - stamp > 1`, it sets `stamp` to `now2`, prints one summary read from the
just-updated accumulators and resets both (to their constructed state);
otherwise it prints nothing and keeps `stamp` and the just-updated
accumulators. The summary holds the size `get_data`, `get_n_packets`,
`get_avg_size`, `get_bitrate` and the entropy `get_data`. -/
theorem C14_pkt_handler_returns (fuel : Nat) (pm : PacketManager) (hdr : pcap_pkthdr)
    (data : PacketData) (now now2 : Int) (hfuel : 65536 ≤ fuel) (hlen : hdr.len ≤ 65535) :
    ∃ e : EntropyAccumulator, pm.entropy_acc.accumulate fuel hdr data = some e ∧
      (pm.size_acc.accumulate hdr data).reset = SizeAccumulator.ctor ∧
      e.reset = EntropyAccumulator.ctor ∧
      pm.pkt_handler fuel hdr data now now2
        = some (if now - pm.stamp > 1 then
            (⟨(pm.size_acc.accumulate hdr data).reset, e.reset, now2⟩,
              [⟨(pm.size_acc.accumulate hdr data).get_data,
                (pm.size_acc.accumulate hdr data).get_n_packets,
                (pm.size_acc.accumulate hdr data).get_avg_size,
                (pm.size_acc.accumulate hdr data).get_bitrate,
                e.get_data⟩])
          else (⟨pm.size_acc.accumulate hdr data, e, pm.stamp⟩, [])) := by
  obtain ⟨H, -, hacc⟩ := entropy_accumulate_isSome fuel pm.entropy_acc hdr data hlen
    (by omega)
  refine ⟨pm.entropy_acc.update H, hacc, rfl, rfl, ?_⟩
  rw [pkt_handler_eq, hacc, Option.map_some']
  rfl

/-- C14 witness: a 100-byte frame delivered at second 12 after a boundary at
second 10. -/
theorem C14_pkt_handler_returns_witness :
    ∃ e : EntropyAccumulator,
      (PacketManager.ctor 10).entropy_acc.accumulate 65536 (udpFrame 12 100 65).pkthdr
        (udpFrame 12 100 65).packet_data = some e ∧
      ((PacketManager.ctor 10).size_acc.accumulate (udpFrame 12 100 65).pkthdr
        (udpFrame 12 100 65).packet_data).reset = SizeAccumulator.ctor ∧
      e.reset = EntropyAccumulator.ctor ∧
      (PacketManager.ctor 10).pkt_handler 65536 (udpFrame 12 100 65).pkthdr
          (udpFrame 12 100 65).packet_data 12 12
        = some (if 12 - (PacketManager.ctor 10).stamp > 1 then
            (⟨((PacketManager.ctor 10).size_acc.accumulate (udpFrame 12 100 65).pkthdr
                (udpFrame 12 100 65).packet_data).reset, e.reset, 12⟩,
              [⟨((PacketManager.ctor 10).size_acc.accumulate (udpFrame 12 100 65).pkthdr
                  (udpFrame 12 100 65).packet_data).get_data,
                ((PacketManager.ctor 10).size_acc.accumulate (udpFrame 12 100 65).pkthdr
                  (udpFrame 12 100 65).packet_data).get_n_packets,
                ((PacketManager.ctor 10).size_acc.accumulate (udpFrame 12 100 65).pkthdr
                  (udpFrame 12 100 65).packet_data).get_avg_size,
                ((PacketManager.ctor 10).size_acc.accumulate (udpFrame 12 100 65).pkthdr
                  (udpFrame 12 100 65).packet_data).get_bitrate,
                e.get_data⟩])
          else (⟨(PacketManager.ctor 10).size_acc.accumulate (udpFrame 12 100 65).pkthdr
                (udpFrame 12 100 65).packet_data, e, (PacketManager.ctor 10).stamp⟩, [])) :=
  C14_pkt_handler_returns 65536 (PacketManager.ctor 10) (udpFrame 12 100 65).pkthdr
    (udpFrame 12 100 65).packet_data 12 12 (by decide) (by decide)

/-- C14 counterexample. First, on a frame of wire length 65536 delivered at
second 12 after a boundary at second 10 (`now - stamp > 1`) the handler never
returns, whatever the fuel: it neither stamps, prints nor resets. Second, on a
header-only frame with the test reading `now = 12` and the following reading
`13`, the handler sets `stamp` to 13, not to `now`. -/
theorem C14_counterexample :
    ((12 : Int) - (PacketManager.ctor 10).stamp > 1 ∧
      ∀ fuel : Nat,
        (PacketManager.ctor 10).pkt_handler fuel (udpFrame 12 65536 65).pkthdr
          (udpFrame 12 65536 65).packet_data 12 12 = none) ∧
    (∃ (pm : PacketManager) (st : Statistics),
      (PacketManager.ctor 10).pkt_handler 65536 (udpFrame 12 42 65).pkthdr
        (udpFrame 12 42 65).packet_data 12 13 = some (pm, [st]) ∧
      pm.stamp = 13 ∧ pm.stamp ≠ 12) := by
  refine ⟨⟨by decide, fun fuel => ?_⟩, ?_⟩
  · exact pkt_handler_diverges fuel (PacketManager.ctor 10) (udpFrame 12 65536 65).pkthdr
      (udpFrame 12 65536 65).packet_data 12 12 (by decide)
  · have h := pkt_handler_fire 65536 (PacketManager.ctor 10) (udpFrame 12 42 65).pkthdr
      (udpFrame 12 42 65).packet_data 12 13 _
      (entropy_accumulate_no_payload 65536 EntropyAccumulator.ctor (udpFrame 12 42 65).pkthdr
        (udpFrame 12 42 65).packet_data (by decide) (by decide)).2 (by decide)
    exact ⟨_, _, h, rfl, by decide⟩

/-! ## The frequency table and the Shannon entropy -/

/-- C15: for every frame of wire length at most 65535 and greater than
`offset = 14 + 4 * (low nibble of byte 14) + 8`, `accumulate` uses the payload
size `wire_length - offset` and builds a table in which `freq[v]` is the
number of offsets `i` with `offset ≤ i < wire_length` and `bytes[i] == v`; the
256 frequencies add up to the payload size. -/
theorem C15_frequency_table (fuel : Nat) (hdr : pcap_pkthdr) (data : PacketData)
    (hfuel : 65536 ≤ fuel) (hlen : hdr.len ≤ 65535) (hgt : scanStart data < hdr.len) :
    scanStart data = 14 + 4 * ((data 14).val % 16) + 8 ∧
      udp_payload hdr data = (hdr.len : Int) - (scanStart data : Int) ∧
      ∃ freq : Fin 256 → Nat,
        frequencies fuel hdr data = some freq ∧
        (∀ v, freq v
          = ((Finset.Ico (scanStart data) hdr.len).filter (fun i => data i = v)).card) ∧
        (∑ v, freq v) = hdr.len - scanStart data ∧
        ((∑ v, freq v : Nat) : Int) = udp_payload hdr data := by
  have hstart := scanStart_eq data
  have hpay := udp_payload_eq hdr data hlen
  have hoff : scanStart data = 14 + 4 * ((data 14).val % 16) + 8 := by
    have h1 := hstart.1
    unfold payloadOffset ip_hl at h1
    omega
  refine ⟨hoff, by omega, byteCount data (scanStart data) hdr.len,
    frequencies_eq fuel hdr data hlen (by omega), fun v => rfl,
    byteCount_total data (scanStart data) hdr.len, ?_⟩
  rw [byteCount_total]
  omega

/-- C15 witness: a 52-byte frame with header-length nibble 5 and ten payload
bytes. -/
theorem C15_frequency_table_witness :
    scanStart (udpFrame 5 52 65).packet_data
        = 14 + 4 * (((udpFrame 5 52 65).packet_data 14).val % 16) + 8 ∧
      udp_payload (udpFrame 5 52 65).pkthdr (udpFrame 5 52 65).packet_data
        = ((udpFrame 5 52 65).pkthdr.len : Int)
          - (scanStart (udpFrame 5 52 65).packet_data : Int) ∧
      ∃ freq : Fin 256 → Nat,
        frequencies 65536 (udpFrame 5 52 65).pkthdr (udpFrame 5 52 65).packet_data
          = some freq ∧
        (∀ v, freq v
          = ((Finset.Ico (scanStart (udpFrame 5 52 65).packet_data)
              (udpFrame 5 52 65).pkthdr.len).filter
                (fun i => (udpFrame 5 52 65).packet_data i = v)).card) ∧
        (∑ v, freq v)
          = (udpFrame 5 52 65).pkthdr.len - scanStart (udpFrame 5 52 65).packet_data ∧
        ((∑ v, freq v : Nat) : Int)
          = udp_payload (udpFrame 5 52 65).pkthdr (udpFrame 5 52 65).packet_data :=
  C15_frequency_table 65536 (udpFrame 5 52 65).pkthdr (udpFrame 5 52 65).packet_data
    (by decide) (by decide) (by decide)

/-- One term of the computed sum is minus the matching Shannon term. -/
theorem entropyTerm_eq_shannon (freq : Fin 256 → Nat) (n : Int) (hpos : 0 < n)
    (v : Fin 256) :
    entropyTerm freq n v
      = -(if freq v = 0 then 0
          else ((freq v : ℝ) / (n : ℝ)) * Real.logb 2 ((freq v : ℝ) / (n : ℝ))) := by
  unfold entropyTerm
  split
  · simp
  · rename_i hv
    have hf : (freq v : ℝ) ≠ 0 := by exact_mod_cast hv
    have hN : (n : ℝ) ≠ 0 := by
      have : (0 : ℝ) < (n : ℝ) := by exact_mod_cast hpos
      exact ne_of_gt this
    rw [Real.logb_div hf hN]
    ring

/-- C16: for every frequency table over the 256 byte values with positive
total `n = payload_size`, the sum the code computes, over the `i` with
`freq[i] != 0` of `(freq[i]/n) * (log2(n) - log2(freq[i]))`, equals the Shannon
entropy `-Σ p_i * log2(p_i)` with `p_i = freq[i]/n`, over the reals. -/
theorem C16_entropy_is_shannon (freq : Fin 256 → Nat) (n : Int) (hpos : 0 < n)
    (_hsum : ((∑ v, freq v : Nat) : Int) = n) :
    pkt_entropy freq n = shannonEntropy freq n ∧
      pkt_entropy freq n
        = ∑ i : Fin 256, if freq i = 0 then 0
            else ((freq i : ℝ) / (n : ℝ))
              * (Real.logb 2 (n : ℝ) - Real.logb 2 (freq i : ℝ)) := by
  refine ⟨?_, pkt_entropy_eq_sum freq n⟩
  rw [pkt_entropy_eq_sum]
  unfold shannonEntropy
  rw [← Finset.sum_neg_distrib]
  exact Finset.sum_congr rfl (fun v _ => entropyTerm_eq_shannon freq n hpos v)

/-- C16 witness: the table of a payload of ten bytes, all equal to `0x41`. -/
theorem C16_entropy_is_shannon_witness :
    pkt_entropy (fun v => if v = 65 then 10 else 0) 10
        = shannonEntropy (fun v => if v = 65 then 10 else 0) 10 ∧
      pkt_entropy (fun v => if v = 65 then 10 else 0) 10
        = ∑ i : Fin 256, if (fun v : Fin 256 => if v = 65 then 10 else 0) i = 0 then 0
            else (((fun v : Fin 256 => if v = 65 then 10 else 0) i : Nat) : ℝ)
                / (((10 : Int)) : ℝ)
              * (Real.logb 2 ((10 : Int) : ℝ)
                - Real.logb 2 (((fun v : Fin 256 => if v = 65 then 10 else 0) i : Nat) : ℝ)) :=
  C16_entropy_is_shannon (fun v => if v = 65 then 10 else 0) 10 (by decide)
    (by rw [Finset.sum_ite_eq' Finset.univ (65 : Fin 256) (fun _ => 10)]; simp)

/-! ## The uniform payload -/

/-- The entropy sum of the table with every frequency 1 and total 256 is 8. -/
theorem pkt_entropy_uniform (freq : Fin 256 → Nat) (h : ∀ v, freq v = 1) :
    pkt_entropy freq 256 = 8 := by
  have h8 : Real.logb 2 (256 : ℝ) = 8 := by
    have : (256 : ℝ) = 2 ^ 8 := by norm_num
    rw [this, Real.logb_pow, Real.logb_self_eq_one (by norm_num)]
    norm_num
  rw [pkt_entropy_eq_sum]
  have hterm : ∀ v ∈ (Finset.univ : Finset (Fin 256)), entropyTerm freq 256 v = 1 / 32 := by
    intro v _
    unfold entropyTerm
    rw [h v, if_neg (by decide)]
    push_cast
    rw [h8, Real.logb_one]
    norm_num
  rw [Finset.sum_congr rfl hterm, Finset.sum_const, Finset.card_univ, Fintype.card_fin]
  norm_num

/-- C11: for every frame whose payload is exactly 256 bytes in which each byte
value occurs exactly once, the per-frame entropy computed by `accumulate` is
exactly 8, and `accumulate` folds 8 into the average. -/
theorem C11_distinct_bytes (fuel : Nat) (hdr : pcap_pkthdr) (data : PacketData)
    (hfuel : 65536 ≤ fuel) (hlen : hdr.len = scanStart data + 256)
    (hcount : ∀ v : Fin 256,
      ((Finset.Ico (scanStart data) hdr.len).filter (fun i => data i = v)).card = 1) :
    udp_payload hdr data = 256 ∧ frameEntropy fuel hdr data = some 8 ∧
      ∀ s : EntropyAccumulator, s.accumulate fuel hdr data = some (s.update 8) := by
  have hstart := scanStart_eq data
  have hlen2 : hdr.len ≤ 65535 := by omega
  have hpay : udp_payload hdr data = 256 := by
    rw [udp_payload_eq hdr data hlen2]
    omega
  have hfreq := frequencies_eq fuel hdr data hlen2 (by omega)
  have hH : frameEntropy fuel hdr data = some 8 := by
    simp only [frameEntropy, hfreq, Option.map_some', hpay]
    rw [pkt_entropy_uniform (byteCount data (scanStart data) hdr.len) (fun v => hcount v)]
  exact ⟨hpay, hH, fun s => by simp only [EntropyAccumulator.accumulate, hH]⟩

/-- Each byte value occurs exactly once among the payload bytes of
`distinctFrame`. -/
theorem distinctFrame_counts (v : Fin 256) :
    ((Finset.Ico (scanStart distinctFrame.packet_data) distinctFrame.pkthdr.len).filter
      (fun i => distinctFrame.packet_data i = v)).card = 1 := by
  have hs : scanStart distinctFrame.packet_data = 42 := by decide
  have hl : distinctFrame.pkthdr.len = 298 := rfl
  rw [hs, hl, Finset.card_eq_one]
  refine ⟨42 + v.val, ?_⟩
  ext i
  simp only [Finset.mem_filter, Finset.mem_Ico, Finset.mem_singleton, distinctFrame]
  have hv := v.isLt
  constructor
  · rintro ⟨⟨h1, h2⟩, h3⟩
    rw [if_neg (by omega)] at h3
    have h4 := congrArg Fin.val h3
    simp only at h4
    omega
  · rintro rfl
    refine ⟨⟨by omega, by omega⟩, ?_⟩
    rw [if_neg (by omega)]
    apply Fin.ext
    simp only
    omega

/-- C11 witness: the frame whose payload is the bytes 0 to 255 in order. -/
theorem C11_distinct_bytes_witness :
    udp_payload distinctFrame.pkthdr distinctFrame.packet_data = 256 ∧
      frameEntropy 65536 distinctFrame.pkthdr distinctFrame.packet_data = some 8 ∧
      ∀ s : EntropyAccumulator,
        s.accumulate 65536 distinctFrame.pkthdr distinctFrame.packet_data
          = some (s.update 8) :=
  C11_distinct_bytes 65536 distinctFrame.pkthdr distinctFrame.packet_data (by decide)
    (by decide) distinctFrame_counts

/-! ## Smallest, average and largest -/

/-- Below `2^32` both counters are exact. -/
theorem size_counters_exact (frames : List Frame) (hlen : frames.length < 4294967296)
    (hsum : (wireLengths frames).sum < 4294967296) :
    (SizeAccumulator.ctor.accumulateAll frames).n_packets = frames.length ∧
      (SizeAccumulator.ctor.accumulateAll frames).total_size = (wireLengths frames).sum := by
  obtain ⟨h1, h2⟩ := size_counters_accumulateAll frames SizeAccumulator.ctor
  obtain ⟨b1, b2⟩ := size_counters_lt frames SizeAccumulator.ctor (by decide) (by decide)
  have e1 : SizeAccumulator.ctor.n_packets = 0 := rfl
  have e2 : SizeAccumulator.ctor.total_size = 0 := rfl
  rw [e1, Nat.zero_add, Nat.mod_eq_of_lt b1, Nat.mod_eq_of_lt hlen] at h1
  rw [e2, Nat.zero_add, Nat.mod_eq_of_lt b2, Nat.mod_eq_of_lt hsum] at h2
  exact ⟨h1, h2⟩

theorem list_sum_ge (l : List Nat) (a : Nat) (h : ∀ x ∈ l, a ≤ x) :
    a * l.length ≤ l.sum := by
  induction l with
  | nil => simp
  | cons y ys ih =>
    have h1 := h y (List.mem_cons_self _ _)
    have h2 := ih (fun x hx => h x (List.mem_cons_of_mem _ hx))
    rw [List.length_cons, List.sum_cons, Nat.mul_succ]
    omega

theorem list_sum_le (l : List Nat) (b : Nat) (h : ∀ x ∈ l, x ≤ b) :
    l.sum ≤ b * l.length := by
  induction l with
  | nil => simp
  | cons y ys ih =>
    have h1 := h y (List.mem_cons_self _ _)
    have h2 := ih (fun x hx => h x (List.mem_cons_of_mem _ hx))
    rw [List.length_cons, List.sum_cons, Nat.mul_succ]
    omega

/-- C19 (as amended): for every non-empty sequence of fewer than `2^32` frames
whose wire lengths are all at most 65515 and add up to less than `2^32`,
accumulated from the constructed state,
`get_smallest() ≤ get_avg_size() ≤ get_largest()`. -/
theorem C19_avg_between_extremes (frames : List Frame) (hne : frames ≠ [])
    (hcount : frames.length < 4294967296)
    (_hbound : ∀ L ∈ wireLengths frames, L ≤ 65515)
    (hsum : (wireLengths frames).sum < 4294967296) :
    (SizeAccumulator.ctor.accumulateAll frames).get_smallest
        ≤ (SizeAccumulator.ctor.accumulateAll frames).get_avg_size ∧
      (SizeAccumulator.ctor.accumulateAll frames).get_avg_size
        ≤ (SizeAccumulator.ctor.accumulateAll frames).get_largest := by
  obtain ⟨hn, ht⟩ := size_counters_exact frames hcount hsum
  have hk : 0 < frames.length := List.length_pos.mpr hne
  have hwl : (wireLengths frames).length = frames.length := by simp [wireLengths]
  have hs : (SizeAccumulator.ctor.accumulateAll frames).get_smallest
      = (wireLengths frames).foldl min 65515 :=
    size_smallest_accumulateAll frames SizeAccumulator.ctor
  have hl : (SizeAccumulator.ctor.accumulateAll frames).get_largest
      = (wireLengths frames).foldl max 0 :=
    size_largest_accumulateAll frames SizeAccumulator.ctor
  have havg : (SizeAccumulator.ctor.accumulateAll frames).get_avg_size
      = (wireLengths frames).sum / frames.length := by
    unfold SizeAccumulator.get_avg_size
    rw [hn, ht, if_neg (by omega)]
  rw [hs, hl, havg]
  constructor
  · rw [Nat.le_div_iff_mul_le hk, ← hwl]
    exact list_sum_ge _ _ (foldl_min_le (wireLengths frames) 65515).2
  · apply Nat.div_le_of_le_mul
    rw [Nat.mul_comm, ← hwl]
    exact list_sum_le _ _ (foldl_max_ge (wireLengths frames) 0).2

/-- C19 witness: the frames of wire length 100, 200 and 300. -/
theorem C19_avg_between_extremes_witness :
    (SizeAccumulator.ctor.accumulateAll
        [plainFrame 5 100, plainFrame 5 200, plainFrame 5 300]).get_smallest
        ≤ (SizeAccumulator.ctor.accumulateAll
            [plainFrame 5 100, plainFrame 5 200, plainFrame 5 300]).get_avg_size ∧
      (SizeAccumulator.ctor.accumulateAll
          [plainFrame 5 100, plainFrame 5 200, plainFrame 5 300]).get_avg_size
        ≤ (SizeAccumulator.ctor.accumulateAll
            [plainFrame 5 100, plainFrame 5 200, plainFrame 5 300]).get_largest :=
  C19_avg_between_extremes [plainFrame 5 100, plainFrame 5 200, plainFrame 5 300]
    (List.cons_ne_nil _ _) (by decide) (by decide) (by decide)

/-- A running maximum over elements none of which exceeds the start value is
the start value. -/
theorem foldl_max_of_le (l : List Nat) (a : Nat) (h : ∀ x ∈ l, x ≤ a) :
    l.foldl max a = a := by
  rcases foldl_max_mem l a with h1 | h1
  · exact h1
  · exact le_antisymm (h _ h1) (foldl_max_ge l a).1

theorem size_get_largest_eq (s : SizeAccumulator) : s.get_largest = s.largest := rfl

theorem wrappingRun_lengths :
    wireLengths wrappingRun = 10 :: 20 :: List.replicate 4294967295 0 := by
  unfold wrappingRun wireLengths
  rw [List.map_cons, List.map_cons, List.map_replicate]
  rfl

/-- C19 counterexample: `wrappingRun` has `2^32 + 1` frames, all of wire
length at most 65515, adding up to 30. The 32-bit `n_packets` is 1, so
`get_avg_size()` is 30, above `get_largest()`, which is 20. -/
theorem C19_counterexample :
    wrappingRun ≠ [] ∧
      (∀ L ∈ wireLengths wrappingRun, L ≤ 65515) ∧
      (wireLengths wrappingRun).sum = 30 ∧
      (SizeAccumulator.ctor.accumulateAll wrappingRun).get_avg_size = 30 ∧
      (SizeAccumulator.ctor.accumulateAll wrappingRun).get_largest = 20 ∧
      ¬ ((SizeAccumulator.ctor.accumulateAll wrappingRun).get_avg_size
          ≤ (SizeAccumulator.ctor.accumulateAll wrappingRun).get_largest) := by
  have hzero : (List.replicate 4294967295 (0 : Nat)).sum = 0 := by
    rw [List.sum_replicate, smul_zero]
  have hsum : (wireLengths wrappingRun).sum = 30 := by
    rw [wrappingRun_lengths, List.sum_cons, List.sum_cons, hzero]
  have hlen : wrappingRun.length = 4294967297 := by
    unfold wrappingRun
    rw [List.length_cons, List.length_cons, List.length_replicate]
  obtain ⟨h1, h2⟩ := size_counters_accumulateAll wrappingRun SizeAccumulator.ctor
  obtain ⟨b1, b2⟩ := size_counters_lt wrappingRun SizeAccumulator.ctor (by decide) (by decide)
  have e1 : SizeAccumulator.ctor.n_packets = 0 := rfl
  have e2 : SizeAccumulator.ctor.total_size = 0 := rfl
  rw [e1, Nat.zero_add, Nat.mod_eq_of_lt b1, hlen] at h1
  rw [e2, Nat.zero_add, Nat.mod_eq_of_lt b2, hsum] at h2
  have hn : (SizeAccumulator.ctor.accumulateAll wrappingRun).n_packets = 1 := by
    rw [h1]
  have ht : (SizeAccumulator.ctor.accumulateAll wrappingRun).total_size = 30 := by
    rw [h2]
  have havg : (SizeAccumulator.ctor.accumulateAll wrappingRun).get_avg_size = 30 := by
    unfold SizeAccumulator.get_avg_size
    rw [hn, ht]
    rfl
  have hfold : (wireLengths wrappingRun).foldl max SizeAccumulator.ctor.largest = 20 := by
    have hmax : max (max SizeAccumulator.ctor.largest 10) 20 = 20 := by decide
    rw [wrappingRun_lengths, List.foldl_cons, List.foldl_cons, hmax]
    exact foldl_max_of_le (List.replicate 4294967295 0) 20
      (fun x hx => by rw [List.eq_of_mem_replicate hx]; exact Nat.zero_le _)
  have hlar : (SizeAccumulator.ctor.accumulateAll wrappingRun).get_largest = 20 := by
    rw [size_get_largest_eq, size_largest_accumulateAll wrappingRun SizeAccumulator.ctor]
    exact hfold
  refine ⟨List.cons_ne_nil _ _, ?_, hsum, havg, hlar, ?_⟩
  · intro L hL
    rw [wrappingRun_lengths] at hL
    rcases List.mem_cons.mp hL with rfl | hL
    · decide
    · rcases List.mem_cons.mp hL with rfl | hL
      · decide
      · rw [List.eq_of_mem_replicate hL]
        decide
  · intro hle
    have h30 : 30 ≤ 20 :=
      calc 30 = (SizeAccumulator.ctor.accumulateAll wrappingRun).get_avg_size := havg.symm
        _ ≤ (SizeAccumulator.ctor.accumulateAll wrappingRun).get_largest := hle
        _ = 20 := hlar
    exact absurd h30 (by decide)

/-! ## The range of the running average -/

/-- Whenever a frame of wire length at most 65535 has a per-frame entropy, it
lies between 0 and 8. -/
theorem frameEntropy_range (fuel : Nat) (hdr : pcap_pkthdr) (data : PacketData) (H : ℝ)
    (hlen : hdr.len ≤ 65535) (hfuel : hdr.len < fuel)
    (hH : frameEntropy fuel hdr data = some H) : 0 ≤ H ∧ H ≤ 8 := by
  by_cases hpos : 0 < udp_payload hdr data
  · obtain ⟨H2, hH2, h0, h8, -⟩ := frameEntropy_bounds fuel hdr data hlen hfuel hpos
    rw [hH2] at hH
    have : H2 = H := Option.some.inj hH
    rw [← this]
    exact ⟨h0, h8⟩
  · have hsize : (hdr.len : Int) - (payloadOffset data + 8) ≤ 0 := by
      rw [udp_payload_eq hdr data hlen] at hpos
      omega
    have h0 := (entropy_accumulate_no_payload fuel EntropyAccumulator.ctor hdr data
      (by omega) hsize).1
    rw [h0] at hH
    have : (0 : ℝ) = H := Option.some.inj hH
    rw [← this]
    norm_num

/-- Folding an entropy between 0 and 8 into an average between 0 and 8, on a
counter that does not overflow, gives an average between 0 and 8. -/
theorem entropy_update_range_avg (s : EntropyAccumulator) (H : ℝ)
    (h0 : 0 ≤ s.n_packets) (h1 : s.n_packets < 2147483647)
    (ha0 : 0 ≤ s.avg_entropy) (ha8 : s.avg_entropy ≤ 8) (hH0 : 0 ≤ H) (hH8 : H ≤ 8) :
    0 ≤ (s.update H).avg_entropy ∧ (s.update H).avg_entropy ≤ 8 ∧
      0 ≤ (s.update H).n_packets := by
  obtain ⟨hn, havg⟩ := entropy_update_eq s H h0 h1
  have hnr : (0 : ℝ) ≤ (s.n_packets : ℝ) := by exact_mod_cast h0
  have hpos : (0 : ℝ) < (s.n_packets : ℝ) + 1 := by linarith
  rw [havg, hn]
  refine ⟨div_nonneg (add_nonneg (mul_nonneg ha0 hnr) hH0) (le_of_lt hpos), ?_, by omega⟩
  rw [div_le_iff₀ hpos]
  nlinarith [mul_le_mul_of_nonneg_right ha8 hnr]

/-- C17 (as amended): `0 ≤ avg_entropy ≤ 8` together with `0 ≤ n_packets`
holds in the constructed state, is restored by `reset()`, and is preserved by
`accumulate()` on every frame of wire length at most 65535 as long as the
counter stays below `2^31 - 1` (exact real arithmetic); on such a frame
`accumulate()` returns. -/
theorem C17_entropy_invariant (fuel : Nat) (s : EntropyAccumulator) (hdr : pcap_pkthdr)
    (data : PacketData) (hfuel : 65536 ≤ fuel) (hlen : hdr.len ≤ 65535)
    (h0 : 0 ≤ s.n_packets) (h1 : s.n_packets < 2147483647)
    (ha0 : 0 ≤ s.avg_entropy) (ha8 : s.avg_entropy ≤ 8) :
    (0 ≤ EntropyAccumulator.ctor.avg_entropy ∧ EntropyAccumulator.ctor.avg_entropy ≤ 8 ∧
        0 ≤ EntropyAccumulator.ctor.n_packets) ∧
      (0 ≤ s.reset.avg_entropy ∧ s.reset.avg_entropy ≤ 8 ∧ 0 ≤ s.reset.n_packets) ∧
      ∃ s2 : EntropyAccumulator, s.accumulate fuel hdr data = some s2 ∧
        0 ≤ s2.avg_entropy ∧ s2.avg_entropy ≤ 8 ∧ 0 ≤ s2.n_packets := by
  have hc : (0 : ℝ) ≤ 0 ∧ (0 : ℝ) ≤ 8 ∧ (0 : Int) ≤ 0 := ⟨le_refl _, by norm_num, le_refl _⟩
  refine ⟨hc, hc, ?_⟩
  obtain ⟨H, hH, hacc⟩ := entropy_accumulate_isSome fuel s hdr data hlen (by omega)
  obtain ⟨hH0, hH8⟩ := frameEntropy_range fuel hdr data H hlen (by omega) hH
  exact ⟨s.update H, hacc, entropy_update_range_avg s H h0 h1 ha0 ha8 hH0 hH8⟩

/-- C17 witness: a frame with ten equal payload bytes after one packet of
entropy 4. -/
theorem C17_entropy_invariant_witness :
    (0 ≤ EntropyAccumulator.ctor.avg_entropy ∧ EntropyAccumulator.ctor.avg_entropy ≤ 8 ∧
        0 ≤ EntropyAccumulator.ctor.n_packets) ∧
      (0 ≤ (EntropyAccumulator.reset ⟨1, 4⟩).avg_entropy ∧
        (EntropyAccumulator.reset ⟨1, 4⟩).avg_entropy ≤ 8 ∧
        0 ≤ (EntropyAccumulator.reset ⟨1, 4⟩).n_packets) ∧
      ∃ s2 : EntropyAccumulator,
        EntropyAccumulator.accumulate 65536 ⟨1, 4⟩ (udpFrame 5 52 65).pkthdr
          (udpFrame 5 52 65).packet_data = some s2 ∧
        0 ≤ s2.avg_entropy ∧ s2.avg_entropy ≤ 8 ∧ 0 ≤ s2.n_packets :=
  C17_entropy_invariant 65536 ⟨1, 4⟩ (udpFrame 5 52 65).pkthdr (udpFrame 5 52 65).packet_data
    (by decide) (by decide) (by decide) (by decide)
    (show (0 : ℝ) ≤ 4 by norm_num) (show (4 : ℝ) ≤ 8 by norm_num)

/-- The per-frame entropy of `mixedFrame`, whose two payload bytes differ, is
positive. -/
theorem mixedFrame_entropy_pos :
    ∃ H : ℝ, frameEntropy 65536 mixedFrame.pkthdr mixedFrame.packet_data = some H ∧ 0 < H := by
  obtain ⟨H, hH, h0, -, hiff⟩ := frameEntropy_bounds 65536 mixedFrame.pkthdr
    mixedFrame.packet_data (by decide) (by decide) (by decide)
  refine ⟨H, hH, lt_of_le_of_ne h0 (fun hz => ?_)⟩
  obtain ⟨b, hb⟩ := hiff.mp hz.symm
  have hs : scanStart mixedFrame.packet_data = 42 := by decide
  have hl : mixedFrame.pkthdr.len = 44 := rfl
  have h42 := hb 42 (by rw [hs]) (by rw [hl]; decide)
  have h43 := hb 43 (by rw [hs]; decide) (by rw [hl]; decide)
  have : mixedFrame.packet_data 42 = mixedFrame.packet_data 43 := by rw [h42, h43]
  exact absurd this (by decide)

/-- The entropies of a run that repeats one frame are all that frame's. -/
theorem forall2_replicate_entropy (fuel : Nat) (f : Frame) (H : ℝ)
    (hH : frameEntropy fuel f.pkthdr f.packet_data = some H) :
    ∀ (k : Nat) (Hs : List ℝ),
      List.Forall₂ (fun g x => frameEntropy fuel g.pkthdr g.packet_data = some x)
        (List.replicate k f) Hs →
      Hs.sum = (k : ℝ) * H := by
  intro k
  induction k with
  | zero =>
    intro Hs h
    cases h
    simp
  | succ n ih =>
    intro Hs h
    rw [List.replicate_succ] at h
    cases h with
    | cons hx hrest =>
      rw [hH] at hx
      have hx2 := Option.some.inj hx
      rw [List.sum_cons, ih _ hrest, ← hx2]
      push_cast
      ring

/-- C17 counterexample: from the constructed state, after `2^31 - 1` copies of
`mixedFrame` the average lies in `[0, 8]` and `n_packets` is `2^31 - 1`; one
more `accumulate` of the same frame overflows the `int` counter and leaves a
negative average. -/
theorem C17_counterexample :
    ∃ s1 s2 : EntropyAccumulator,
      EntropyAccumulator.accumulateAll 65536 EntropyAccumulator.ctor
        (List.replicate 2147483647 mixedFrame) = some s1 ∧
      0 ≤ s1.avg_entropy ∧ s1.avg_entropy ≤ 8 ∧ s1.n_packets = 2147483647 ∧
      s1.accumulate 65536 mixedFrame.pkthdr mixedFrame.packet_data = some s2 ∧
      EntropyAccumulator.accumulateAll 65536 EntropyAccumulator.ctor
        (List.replicate 2147483647 mixedFrame ++ [mixedFrame]) = some s2 ∧
      s2.avg_entropy < 0 := by
  obtain ⟨H, hH, hHpos⟩ := mixedFrame_entropy_pos
  have hH8 : H ≤ 8 :=
    (frameEntropy_range 65536 mixedFrame.pkthdr mixedFrame.packet_data H
      (by decide) (by decide) hH).2
  have hc0 : EntropyAccumulator.ctor.n_packets = 0 := rfl
  obtain ⟨Hs, s1, hall, hrun, hn, havg⟩ :=
    entropy_accumulateAll_sum 65536 (le_refl _) (List.replicate 2147483647 mixedFrame)
      EntropyAccumulator.ctor (by rw [hc0])
      (by rw [hc0, List.length_replicate]; decide)
      (fun f hf => by rw [List.eq_of_mem_replicate hf]; decide)
  have hsum := forall2_replicate_entropy 65536 mixedFrame H hH 2147483647 Hs hall
  rw [hc0, List.length_replicate] at hn
  have hn1 : s1.n_packets = 2147483647 := by rw [hn]; decide
  rw [hc0, hsum, hn1] at havg
  have havg1 : s1.avg_entropy = H := by
    push_cast at havg
    linarith
  have hacc : s1.accumulate 65536 mixedFrame.pkthdr mixedFrame.packet_data
      = some (s1.update H) := by
    simp only [EntropyAccumulator.accumulate, hH]
  have hall2 := entropy_accumulateAll_snoc 65536 mixedFrame
    (List.replicate 2147483647 mixedFrame) EntropyAccumulator.ctor s1 hrun
  have hw1 : wrapInt32 (2147483647 + 1) = -2147483648 := by decide
  have hw2 : wrapInt32 (-2147483648 - 1) = 2147483647 := by decide
  have hupd : (s1.update H).avg_entropy = -H := by
    simp only [EntropyAccumulator.update, hn1, hw1, hw2, havg1]
    push_cast
    field_simp
    ring
  refine ⟨s1, s1.update H, hrun, ?_, ?_, hn1, hacc, ?_, ?_⟩
  · rw [havg1]; exact le_of_lt hHpos
  · rw [havg1]; exact hH8
  · rw [hall2, hacc]
  · rw [hupd]; linarith

/-! ## Spacing of the summaries -/

/-- One handler call that returns either prints nothing and keeps `stamp`, or
prints one summary, at a first clock reading at least 2 above `stamp`, and
sets `stamp` to the second clock reading. -/
theorem pkt_handler_stamp (fuel : Nat) (pm pm2 : PacketManager) (hdr : pcap_pkthdr)
    (data : PacketData) (clock clock2 : Int) (out : List Statistics)
    (h : pm.pkt_handler fuel hdr data clock clock2 = some (pm2, out)) :
    (out = [] ∧ pm2.stamp = pm.stamp) ∨
      (∃ st, out = [st] ∧ pm.stamp + 2 ≤ clock ∧ pm2.stamp = clock2) := by
  rw [pkt_handler_eq] at h
  cases hacc : pm.entropy_acc.accumulate fuel hdr data with
  | none => rw [hacc] at h; exact Option.noConfusion h
  | some e =>
    rw [hacc] at h
    simp only [Option.map_some', Option.some.injEq] at h
    by_cases hc : clock - pm.stamp > 1
    · rw [if_pos hc] at h
      obtain ⟨h1, h2⟩ := Prod.mk.inj h
      right
      refine ⟨_, h2.symm, by omega, ?_⟩
      rw [← h1]
    · rw [if_neg hc] at h
      obtain ⟨h1, h2⟩ := Prod.mk.inj h
      left
      refine ⟨h2.symm, ?_⟩
      rw [← h1]

/-- A chain of clock readings 2 apart that starts from a later reading also
starts from an earlier one. -/
theorem chain_two_apart_of_le (a b : Int) (cs : List Int) (hab : a ≤ b)
    (h : List.Chain (fun x y => x + 2 ≤ y) b cs) :
    List.Chain (fun x y => x + 2 ≤ y) a cs := by
  cases h with
  | nil => exact List.Chain.nil
  | cons hr hrest => exact List.Chain.cons (by omega) hrest

/-- A run over frames of wire length at most 65535 always returns. -/
theorem manager_run_isSome (fuel : Nat) (hfuel : 65536 ≤ fuel) (ds : List Delivery) :
    ∀ pm : PacketManager, (∀ d ∈ ds, d.frame.pkthdr.len ≤ 65535) →
      ∃ pm2 out, PacketManager.run fuel pm ds = some (pm2, out) := by
  induction ds with
  | nil => intro pm _; exact ⟨pm, [], rfl⟩
  | cons d ds ih =>
    intro pm hlen
    have hd := hlen d (List.mem_cons_self _ _)
    obtain ⟨H, -, hacc⟩ := entropy_accumulate_isSome fuel pm.entropy_acc d.frame.pkthdr
      d.frame.packet_data hd (by omega)
    have hstep := pkt_handler_eq fuel pm d.frame.pkthdr d.frame.packet_data d.clock d.clock2
    rw [hacc, Option.map_some'] at hstep
    obtain ⟨r, hr⟩ : ∃ r, pm.pkt_handler fuel d.frame.pkthdr d.frame.packet_data d.clock
        d.clock2 = some r := ⟨_, hstep⟩
    obtain ⟨pm1, out1⟩ := r
    obtain ⟨pm2, out2, hrest⟩ := ih pm1 (fun x hx => hlen x (List.mem_cons_of_mem _ hx))
    exact ⟨pm2, out1 ++ out2, by simp only [PacketManager.run, hr, hrest]⟩

/-- C20: for every run of `pkt_handler` that returns, against a clock whose
readings do not decrease within a call, `stamp` does not decrease, one clock
reading is recorded per printed summary, every summary is printed at a clock
reading at least 2 above the `stamp` it was checked against (so the first one
at least 2 seconds after the initial boundary), and two consecutive summaries
are at least 2 clock seconds apart. -/
theorem C20_summaries_two_apart (fuel : Nat) (ds : List Delivery) (pm pm2 : PacketManager)
    (out : List Statistics) (hclock : ∀ d ∈ ds, d.clock ≤ d.clock2)
    (hrun : PacketManager.run fuel pm ds = some (pm2, out)) :
    ∃ cs : List Int, PacketManager.emissionClocks fuel pm ds = some cs ∧
      cs.length = out.length ∧ pm.stamp ≤ pm2.stamp ∧
      List.Chain (fun x y => x + 2 ≤ y) pm.stamp cs := by
  induction ds generalizing pm pm2 out with
  | nil =>
    have h := hrun
    simp only [PacketManager.run, Option.some.injEq, Prod.mk.injEq] at h
    obtain ⟨rfl, rfl⟩ := h
    exact ⟨[], rfl, rfl, le_refl _, List.Chain.nil⟩
  | cons d ds ih =>
    have h := hrun
    have hd := hclock d (List.mem_cons_self _ _)
    simp only [PacketManager.run] at h
    cases hstep : pm.pkt_handler fuel d.frame.pkthdr d.frame.packet_data d.clock d.clock2 with
    | none => rw [hstep] at h; exact Option.noConfusion h
    | some r =>
      obtain ⟨pm1, out1⟩ := r
      rw [hstep] at h
      simp only at h
      cases hrest : PacketManager.run fuel pm1 ds with
      | none => rw [hrest] at h; exact Option.noConfusion h
      | some r2 =>
        obtain ⟨pm3, out3⟩ := r2
        rw [hrest] at h
        simp only [Option.some.injEq, Prod.mk.injEq] at h
        obtain ⟨rfl, rfl⟩ := h
        obtain ⟨cs, hcs, hlen, hmono, hchain⟩ := ih pm1 pm3 out3
          (fun x hx => hclock x (List.mem_cons_of_mem _ hx)) hrest
        rcases pkt_handler_stamp fuel pm pm1 d.frame.pkthdr d.frame.packet_data d.clock
          d.clock2 out1 hstep with ⟨ho, hs⟩ | ⟨st, ho, hgap, hs⟩
        · refine ⟨cs, ?_, ?_, ?_, ?_⟩
          · simp only [PacketManager.emissionClocks, hstep, hcs, ho, List.isEmpty_nil, if_true]
          · rw [ho, hlen]; rfl
          · rw [← hs]; exact hmono
          · rw [← hs]; exact hchain
        · refine ⟨d.clock :: cs, ?_, ?_, ?_, ?_⟩
          · simp [PacketManager.emissionClocks, hstep, hcs, ho]
          · rw [ho, List.length_cons, hlen]
            simp only [List.singleton_append, List.length_cons]
          · omega
          · refine List.Chain.cons hgap (chain_two_apart_of_le d.clock pm1.stamp cs ?_ hchain)
            omega

/-- The run `closingRun` from a boundary at second 10: each of its two calls
closes a window. -/
theorem closingRun_eq :
    PacketManager.run 65536 (PacketManager.ctor 10) closingRun
      = some (⟨SizeAccumulator.ctor, EntropyAccumulator.ctor, 14⟩,
          [closingSummary 12, closingSummary 14]) := by
  have h1 := pkt_handler_fire 65536 (PacketManager.ctor 10) (udpFrame 12 42 65).pkthdr
    (udpFrame 12 42 65).packet_data 12 12 _
    (entropy_accumulate_no_payload 65536 EntropyAccumulator.ctor (udpFrame 12 42 65).pkthdr
      (udpFrame 12 42 65).packet_data (by decide) (by decide)).2 (by decide)
  have h2 := pkt_handler_fire 65536 ⟨SizeAccumulator.ctor, EntropyAccumulator.ctor, 12⟩
    (udpFrame 14 42 65).pkthdr (udpFrame 14 42 65).packet_data 14 14 _
    (entropy_accumulate_no_payload 65536 EntropyAccumulator.ctor (udpFrame 14 42 65).pkthdr
      (udpFrame 14 42 65).packet_data (by decide) (by decide)).2 (by decide)
  simp only [closingRun, udpDelivery, PacketManager.run, h1, h2]
  rfl

/-- C20 witness: two header-only frames delivered at seconds 12 and 14 after a
boundary at second 10; both calls print a summary. -/
theorem C20_summaries_two_apart_witness :
    ∃ cs : List Int,
      PacketManager.emissionClocks 65536 (PacketManager.ctor 10) closingRun = some cs ∧
      cs.length = [closingSummary 12, closingSummary 14].length ∧
      (PacketManager.ctor 10).stamp
        ≤ (⟨SizeAccumulator.ctor, EntropyAccumulator.ctor, 14⟩ : PacketManager).stamp ∧
      List.Chain (fun x y => x + 2 ≤ y) (PacketManager.ctor 10).stamp cs :=
  C20_summaries_two_apart 65536 closingRun (PacketManager.ctor 10)
    ⟨SizeAccumulator.ctor, EntropyAccumulator.ctor, 14⟩
    [closingSummary 12, closingSummary 14] (by decide) closingRun_eq

/-! ## The per-frame entropy in the floating-point arithmetic of the source -/

